import Mathlib

/-!
Verification of the modular-arithmetic library (`modular_arithmetic.py`).

The Python classes `ModInt` and `ModRing` are shallowly embedded below.
Python's arbitrary-precision integers are modelled by `Nat`/`Int`; code that
can raise (`assert`, `raise ValueError`) returns an explicit result type.
The two unbounded `while` loops of `ModRing.factorize` are modelled by
fuel-indexed structural recursions; the fuel chosen (`z` resp. `z + 2`)
provably dominates the number of iterations the Python loops perform, so on
every input on which the Python loop terminates the embedding agrees with it.
-/

namespace ModArith

/-- Inner stripping loop of `ModRing.factorize`
(`while remainder == 0: z = quotient; prime_factors[p] += 1`), fuel-indexed.
Returns `(e, z')` where `e` counts the divisions by `p` performed and `z'` is
the remaining cofactor.  Fuel `z` suffices for `2 ≤ p`, `0 < z`. -/
def stripFactorAux (p : Nat) : Nat → Nat → Nat × Nat
  | 0, z => (0, z)
  | fuel + 1, z =>
    if z % p = 0 then
      let r := stripFactorAux p fuel (z / p)
      (r.1 + 1, r.2)
    else (0, z)

/-- `stripFactor p z` strips all factors `p` from `z` (the two inner loops of
`ModRing.factorize`). -/
def stripFactor (p z : Nat) : Nat × Nat := stripFactorAux p z z

/-- Odd-divisor trial-division loop of `ModRing.factorize`
(`m = 3; while m * m <= z: ...; m += 2`), fuel-indexed, including the final
`if z != 1: prime_factors[z] = 1`. -/
def trialLoopAux : Nat → Nat → Nat → List (Nat × Nat)
  | 0, _, z => if z = 1 then [] else [(z, 1)]
  | fuel + 1, m, z =>
    if m * m ≤ z then
      let r := stripFactor m z
      (if r.1 = 0 then [] else [(m, r.1)]) ++ trialLoopAux fuel (m + 2) r.2
    else if z = 1 then [] else [(z, 1)]

/-- The odd trial-division loop with enough fuel for every terminating input. -/
def trialLoop (z m : Nat) : List (Nat × Nat) := trialLoopAux (z + 2) m z

/-- `ModRing.factorize`: the prime-factor association list of `n`, in the
order the Python dictionary acquires its keys (2 first, then increasing odd
primes). Keys map primes to multiplicities. -/
def factorize (n : Nat) : List (Nat × Nat) :=
  let r := stripFactor 2 n
  (if r.1 = 0 then [] else [(2, r.1)]) ++ trialLoop r.2 3

/-- `ModRing.compute_phi`: `functools.reduce(lambda x, y: x // y * (y - 1),
chain([n], prime_factors.keys()))`. -/
def compute_phi (n : Nat) (pfs : List (Nat × Nat)) : Nat :=
  pfs.foldl (fun acc pe => acc / pe.1 * (pe.1 - 1)) n

/-- The `phi` field a `ModRing(n)` ends up with. -/
def phiOf (n : Nat) : Nat := compute_phi n (factorize n)

/-- `ModRing`: `objId` models Python object identity (two rings constructed
separately are different objects even when their moduli agree); `n` is the
modulus.  The `prime_factors` and `phi` fields are deterministic functions of
`n` computed at construction, embedded as the functions below. -/
structure ModRing where
  objId : Nat
  n : Nat
deriving DecidableEq

/-- The `prime_factors` field of a constructed ring. -/
def ModRing.prime_factors (r : ModRing) : List (Nat × Nat) := factorize r.n

/-- The `phi` field of a constructed ring. -/
def ModRing.phi (r : ModRing) : Nat := phiOf r.n

/-- `ModInt`: an element holds a reference to its ring and its reduced value.
(The Python `self.n` field always equals `self.ring.n`.) -/
structure ModInt where
  ring : ModRing
  value : Nat
deriving DecidableEq

/-- `ModInt.__init__` for a nonnegative raw value: reduce mod `n`. -/
def ModInt.mkN (v : Nat) (r : ModRing) : ModInt := ⟨r, v % r.n⟩

/-- `ModInt.__init__` for an arbitrary integer raw value (Python `%` keeps the
result in `[0, n)` for `n > 0`). -/
def ModInt.mkI (v : Int) (r : ModRing) : ModInt := ⟨r, (v % (r.n : Int)).toNat⟩

/-- `ModRing.__call__`: mint an element of this ring. -/
def ModRing.mint (r : ModRing) (v : Int) : ModInt := ModInt.mkI v r

/-- Errors surfaced by the Python operations: failed `type` assertion,
failed same-ring assertion, and `ValueError`/`AssertionError` inside
`__pow__` (the spec's `InvalidOperationError`). -/
inductive PyErr
  | typeMismatch
  | ringMismatch
  | invalidOp
deriving DecidableEq

/-- Result of an operation that can raise. -/
inductive OpResult (α : Type)
  | ok (a : α)
  | err (e : PyErr)
deriving DecidableEq

/-- A dynamically-typed Python operand as it reaches `__eq__`: either a
`ModInt`, a plain integer, or anything else. -/
inductive PyVal
  | modint (a : ModInt)
  | intVal (k : Int)
  | otherVal
deriving DecidableEq

/-- `ModInt.__eq__`: asserts the operand is a `ModInt`, then asserts same
ring (by identity), then compares values. -/
def ModInt.eq (a : ModInt) (x : PyVal) : OpResult Bool :=
  match x with
  | .modint b =>
    if b.ring = a.ring then .ok (b.value == a.value) else .err .ringMismatch
  | _ => .err .typeMismatch

/-- `ModInt.__neg__`. -/
def ModInt.neg (a : ModInt) : ModInt := ModInt.mkN (a.ring.n - a.value) a.ring

/-- `ModInt.__add__`. -/
def ModInt.add (a b : ModInt) : OpResult ModInt :=
  if b.ring = a.ring then .ok (ModInt.mkN (a.value + b.value) a.ring)
  else .err .ringMismatch

/-- `ModInt.__sub__` (the difference can be negative, hence `Int`). -/
def ModInt.sub (a b : ModInt) : OpResult ModInt :=
  if b.ring = a.ring then .ok (ModInt.mkI ((a.value : Int) - (b.value : Int)) a.ring)
  else .err .ringMismatch

/-- `ModInt.__mul__`. -/
def ModInt.mul (a b : ModInt) : OpResult ModInt :=
  if b.ring = a.ring then .ok (ModInt.mkN (a.value * b.value) a.ring)
  else .err .ringMismatch

/-- `ModInt.is_coprime`: `all(self.value % factor for factor in
self.ring.prime_factors)`. -/
def ModInt.is_coprime (a : ModInt) : Bool :=
  a.ring.prime_factors.all (fun pe => a.value % pe.1 != 0)

/-- The `for i in range(e - 1)` loop inside `ModInt.decompose`: starting from
`value`, strip up to `steps` further factors `p`, returning (number stripped,
remaining value).  (Once a division fails the value no longer changes, so the
remaining range iterations are no-ops.) -/
def countClip (p value : Nat) : Nat → Nat × Nat
  | 0 => (0, value)
  | steps + 1 =>
    if value % p = 0 then
      let r := countClip p (value / p) steps
      (r.1 + 1, r.2)
    else (0, value)

/-- Body of the `for p, e in self.ring.prime_factors.items()` loop of
`ModInt.decompose`; the state is `(nul_pow, value, m, k)`.  The Python local
variables are inlined: `value_e = 1 + r.1` where `r = countClip p (value / p)
(e - 1)`, `nul_pow_p = e / value_e - (1 if e % value_e == 0 else 0)`, and the
updated state is `(max nul_pow_p nul_pow, stripped value, m // p^e, k * p^e)`. -/
def decompBody (st : Int × Nat × Nat × Nat) (pe : Nat × Nat) : Int × Nat × Nat × Nat :=
  if st.2.1 % pe.1 = 0 then
    (max
      (((pe.2 / (1 + (countClip pe.1 (st.2.1 / pe.1) (pe.2 - 1)).1) : Nat) : Int) -
        (if pe.2 % (1 + (countClip pe.1 (st.2.1 / pe.1) (pe.2 - 1)).1) = 0
          then 1 else 0))
      st.1,
      (countClip pe.1 (st.2.1 / pe.1) (pe.2 - 1)).2,
      st.2.2.1 / pe.1 ^ pe.2,
      st.2.2.2 * pe.1 ^ pe.2)
  else st

/-- `ModInt.decompose`: returns `(nul_pow, k, m)`. -/
def ModInt.decompose (a : ModInt) : Int × Nat × Nat :=
  let st := a.ring.prime_factors.foldl decompBody (-1, a.value, a.ring.n, 1)
  (st.1, st.2.2.2, st.2.2.1)

/-- Result of `ModInt.__pow__`: a `ModInt`, an exception, or Python's `None`
(the function body can fall through without a `return`). -/
inductive PowResult
  | ok (a : ModInt)
  | err (e : PyErr)
  | pyNone
deriving DecidableEq

/-- `ModInt.__pow__(exponent, short)`. -/
def ModInt.pow (a : ModInt) (exponent : Int) (short : Bool) : PowResult :=
  if a.value = 0 then .err .invalidOp
  else if exponent = 0 ∨ a.value = 1 then .ok (ModInt.mkN 1 a.ring)
  else if exponent < 0 then
    if a.is_coprime then
      .ok (ModInt.mkN (a.value ^ (exponent % (a.ring.phi : Int)).toNat) a.ring)
    else .err .invalidOp
  else if short then
    let d := a.decompose
    if d.1 = -1 then
      .ok (ModInt.mkN (a.value ^ (exponent % (a.ring.phi : Int)).toNat) a.ring)
    else if exponent > d.1 then
      let phi_m := phiOf d.2.2
      .ok (ModInt.mkN (d.2.1 ^ phi_m * a.value ^ (exponent % (phi_m : Int)).toNat) a.ring)
    else .pyNone
  else .ok (ModInt.mkN (a.value ^ exponent.toNat) a.ring)

/-- `ModInt.__floordiv__`: `self * divisor ** -1` after the same-ring
asserts.  If `divisor ** -1` raises, the exception propagates; if it returned
`None`, `__mul__`'s type assert would fail. -/
def ModInt.floordiv (a b : ModInt) : OpResult ModInt :=
  if b.ring = a.ring then
    match b.pow (-1) true with
    | .ok binv => a.mul binv
    | .err e => .err e
    | .pyNone => .err .typeMismatch
  else .err .ringMismatch

/-! ### Correctness of `factorize` -/

/-- Product reconstructed from a prime-factor association list. -/
def prodPE (L : List (Nat × Nat)) : Nat := (L.map (fun pe => pe.1 ^ pe.2)).prod

@[simp] theorem prodPE_nil : prodPE [] = 1 := rfl

@[simp] theorem prodPE_cons (pe : Nat × Nat) (L : List (Nat × Nat)) :
    prodPE (pe :: L) = pe.1 ^ pe.2 * prodPE L := by simp [prodPE]

theorem stripFactorAux_succ (p fuel z : Nat) :
    stripFactorAux p (fuel + 1) z =
      if z % p = 0 then
        ((stripFactorAux p fuel (z / p)).1 + 1, (stripFactorAux p fuel (z / p)).2)
      else (0, z) := rfl

theorem trialLoopAux_zero (m z : Nat) :
    trialLoopAux 0 m z = if z = 1 then [] else [(z, 1)] := rfl

theorem trialLoopAux_succ (fuel m z : Nat) :
    trialLoopAux (fuel + 1) m z =
      if m * m ≤ z then
        (if (stripFactor m z).1 = 0 then [] else [(m, (stripFactor m z).1)]) ++
          trialLoopAux fuel (m + 2) (stripFactor m z).2
      else if z = 1 then [] else [(z, 1)] := rfl

theorem stripFactorAux_spec (p : Nat) (hp : 2 ≤ p) (fuel : Nat) :
    ∀ z, 0 < z → z ≤ fuel →
      z = p ^ (stripFactorAux p fuel z).1 * (stripFactorAux p fuel z).2 ∧
      ¬ p ∣ (stripFactorAux p fuel z).2 ∧ 0 < (stripFactorAux p fuel z).2 := by
  induction fuel with
  | zero => intro z hz hle; omega
  | succ fuel ih =>
    intro z hz hle
    by_cases h : z % p = 0
    · have hdvd : p ∣ z := Nat.dvd_of_mod_eq_zero h
      have hzp : 0 < z / p := Nat.div_pos (Nat.le_of_dvd hz hdvd) (by omega)
      have hlt : z / p < z := Nat.div_lt_self hz (by omega)
      have hrec := ih (z / p) hzp (by omega)
      rw [stripFactorAux_succ, if_pos h]
      refine ⟨?_, hrec.2.1, hrec.2.2⟩
      have hmul : p * (z / p) = z := Nat.mul_div_cancel' hdvd
      calc z = p * (z / p) := hmul.symm
        _ = p * (p ^ (stripFactorAux p fuel (z / p)).1 *
              (stripFactorAux p fuel (z / p)).2) := by rw [← hrec.1]
        _ = p ^ ((stripFactorAux p fuel (z / p)).1 + 1) *
              (stripFactorAux p fuel (z / p)).2 := by ring
    · rw [stripFactorAux_succ, if_neg h]
      exact ⟨by simp, fun hdvd => h (Nat.mod_eq_zero_of_dvd hdvd), hz⟩

theorem stripFactor_spec (p z : Nat) (hp : 2 ≤ p) (hz : 0 < z) :
    z = p ^ (stripFactor p z).1 * (stripFactor p z).2 ∧
    ¬ p ∣ (stripFactor p z).2 ∧ 0 < (stripFactor p z).2 :=
  stripFactorAux_spec p hp z z hz le_rfl

/-- Conclusions carried through the odd trial-division loop. -/
def TrialConcl (m z : Nat) (L : List (Nat × Nat)) : Prop :=
  (∀ pe ∈ L, pe.1.Prime ∧ 0 < pe.2 ∧ m ≤ pe.1) ∧
  prodPE L = z ∧
  (L.map Prod.fst).Pairwise (· < ·)

theorem trialBase_spec (m z : Nat) (hz : 0 < z) (hm : 3 ≤ m)
    (hlt : ¬ m * m ≤ z) (hnd : ∀ d, 2 ≤ d → d < m → ¬ d ∣ z) :
    TrialConcl m z (if z = 1 then ([] : List (Nat × Nat)) else [(z, 1)]) := by
  by_cases h1 : z = 1
  · subst h1; refine ⟨by simp, by simp, by simp⟩
  · have hz2 : 2 ≤ z := by omega
    have hmz : m ≤ z := by
      by_contra hc
      exact hnd z hz2 (by omega) dvd_rfl
    have hprime : z.Prime := by
      by_contra hp
      have h2 := Nat.minFac_prime h1
      have hsq := Nat.minFac_sq_le_self hz hp
      have hlt' : z.minFac < m := by
        by_contra hc
        push_neg at hc
        have : m * m ≤ z.minFac * z.minFac := Nat.mul_le_mul hc hc
        have : m * m ≤ z := le_trans this (by nlinarith [hsq, sq z.minFac])
        exact hlt this
      exact hnd z.minFac h2.two_le hlt' (Nat.minFac_dvd z)
    simp only [if_neg h1]
    refine ⟨?_, by simp [prodPE], by simp⟩
    intro pe hpe
    simp only [List.mem_singleton] at hpe
    subst hpe
    exact ⟨hprime, by omega, hmz⟩

theorem trialLoopAux_spec (fuel : Nat) :
    ∀ m z, z + 2 - m ≤ fuel → 0 < z → 3 ≤ m → m % 2 = 1 →
      (∀ d, 2 ≤ d → d < m → ¬ d ∣ z) →
      TrialConcl m z (trialLoopAux fuel m z) := by
  induction fuel with
  | zero =>
    intro m z hfuel hz hm hodd hnd
    have hmm : m ≤ m * m := Nat.le_mul_of_pos_left m (by omega)
    have hlt : ¬ m * m ≤ z := by omega
    rw [trialLoopAux_zero]
    exact trialBase_spec m z hz hm hlt hnd
  | succ fuel ih =>
    intro m z hfuel hz hm hodd hnd
    rw [trialLoopAux_succ]
    by_cases hguard : m * m ≤ z
    · rw [if_pos hguard]
      have hsf := stripFactor_spec m z (by omega) hz
      obtain ⟨heq, hndm, hpos⟩ := hsf
      have hmz : m ≤ z := le_trans (Nat.le_mul_of_pos_left m (by omega)) hguard
      have hr2z : (stripFactor m z).2 ≤ z := by
        calc (stripFactor m z).2 ≤ m ^ (stripFactor m z).1 * (stripFactor m z).2 :=
              Nat.le_mul_of_pos_left _ (pow_pos (by omega) _)
          _ = z := heq.symm
      have hr2dvd : (stripFactor m z).2 ∣ z := Dvd.intro_left _ heq.symm
      have hnd2 : ¬ (2 : Nat) ∣ z := hnd 2 le_rfl (by omega)
      have hnd' : ∀ d, 2 ≤ d → d < m + 2 → ¬ d ∣ (stripFactor m z).2 := by
        intro d hd2 hdm hddvd
        have hdz : d ∣ z := hddvd.trans hr2dvd
        rcases Nat.lt_or_ge d m with hdlt | hdge
        · exact hnd d hd2 hdlt hdz
        · rcases Nat.eq_or_lt_of_le hdge with hdeq | hdgt
          · exact hndm (hdeq ▸ hddvd)
          · have hdeq : d = m + 1 := by omega
            have h2d : (2 : Nat) ∣ d := by omega
            exact hnd2 (h2d.trans hdz)
      have hih := ih (m + 2) (stripFactor m z).2 (by omega) hpos (by omega)
        (by omega) hnd'
      obtain ⟨hmem', hprod', hpair'⟩ := hih
      by_cases he : (stripFactor m z).1 = 0
      · have hzr : (stripFactor m z).2 = z := by
          have h' := heq
          rw [he, pow_zero, one_mul] at h'
          omega
        rw [if_pos he, List.nil_append]
        refine ⟨fun pe hpe => ⟨(hmem' pe hpe).1, (hmem' pe hpe).2.1,
          by have := (hmem' pe hpe).2.2; omega⟩, ?_, hpair'⟩
        rw [hprod', hzr]
      · have hmdvd : m ∣ z := by
          rw [heq]
          exact Dvd.dvd.mul_right (dvd_pow_self m he) _
        have hmprime : m.Prime := by
          rw [Nat.prime_def_lt']
          exact ⟨by omega, fun d hd2 hdm hdvd => hnd d hd2 hdm (hdvd.trans hmdvd)⟩
        rw [if_neg he, List.singleton_append]
        refine ⟨?_, ?_, ?_⟩
        · intro pe hpe
          rcases List.mem_cons.mp hpe with hpe | hpe
          · subst hpe
            exact ⟨hmprime, by omega, le_rfl⟩
          · exact ⟨(hmem' pe hpe).1, (hmem' pe hpe).2.1,
              by have := (hmem' pe hpe).2.2; omega⟩
        · rw [prodPE_cons, hprod', ← heq]
        · rw [List.map_cons, List.pairwise_cons]
          refine ⟨?_, hpair'⟩
          intro q hq
          rcases List.mem_map.mp hq with ⟨pe, hpe, hq⟩
          subst hq
          have := (hmem' pe hpe).2.2
          omega
    · rw [if_neg hguard]
      exact trialBase_spec m z hz hm hguard hnd

/-- Master correctness of `factorize`: every entry is a prime with positive
multiplicity, the reconstructed product is `n`, and the keys are strictly
increasing. -/
theorem factorize_spec (n : Nat) (hn : 1 ≤ n) :
    (∀ pe ∈ factorize n, pe.1.Prime ∧ 0 < pe.2) ∧
    prodPE (factorize n) = n ∧
    ((factorize n).map Prod.fst).Pairwise (· < ·) := by
  have hsf := stripFactor_spec 2 n (by norm_num) hn
  obtain ⟨heq, hnd2, hpos⟩ := hsf
  have hloop := trialLoopAux_spec ((stripFactor 2 n).2 + 2) 3 (stripFactor 2 n).2
    (by omega) hpos (by norm_num) (by norm_num)
    (fun d hd2 hd3 => by
      have hd : d = 2 := by omega
      subst hd
      exact hnd2)
  obtain ⟨hmem, hprod, hpair⟩ := hloop
  have hunf : factorize n =
      (if (stripFactor 2 n).1 = 0 then [] else [(2, (stripFactor 2 n).1)]) ++
        trialLoopAux ((stripFactor 2 n).2 + 2) 3 (stripFactor 2 n).2 := rfl
  rw [hunf]
  by_cases he : (stripFactor 2 n).1 = 0
  · have hzr : (stripFactor 2 n).2 = n := by
      have h' := heq
      rw [he, pow_zero, one_mul] at h'
      omega
    rw [if_pos he, List.nil_append]
    refine ⟨fun pe hpe => ⟨(hmem pe hpe).1, (hmem pe hpe).2.1⟩, ?_, hpair⟩
    rw [hprod, hzr]
  · rw [if_neg he, List.singleton_append]
    refine ⟨?_, ?_, ?_⟩
    · intro pe hpe
      rcases List.mem_cons.mp hpe with hpe | hpe
      · subst hpe
        exact ⟨Nat.prime_two, by omega⟩
      · exact ⟨(hmem pe hpe).1, (hmem pe hpe).2.1⟩
    · rw [prodPE_cons, hprod, ← heq]
    · rw [List.map_cons, List.pairwise_cons]
      refine ⟨?_, hpair⟩
      intro q hq
      rcases List.mem_map.mp hq with ⟨pe, hpe, hq⟩
      subst hq
      have := (hmem pe hpe).2.2
      omega

theorem prodPE_pos (L : List (Nat × Nat)) (hL : ∀ pe ∈ L, 0 < pe.1) :
    0 < prodPE L := by
  induction L with
  | nil => simp
  | cons pe L ih =>
    rw [prodPE_cons]
    exact Nat.mul_pos (pow_pos (hL pe (List.mem_cons_self pe L)) _)
      (ih fun q hq => hL q (List.mem_cons_of_mem pe hq))

/-- A prime divides the reconstructed product iff it is one of the keys. -/
theorem prime_dvd_prodPE (L : List (Nat × Nat))
    (hL : ∀ pe ∈ L, pe.1.Prime ∧ 0 < pe.2) (q : Nat) (hq : q.Prime) :
    q ∣ prodPE L ↔ q ∈ L.map Prod.fst := by
  induction L with
  | nil =>
    simp only [prodPE_nil, List.map_nil, List.not_mem_nil, iff_false]
    exact hq.one_lt.ne' ∘ Nat.eq_one_of_dvd_one
  | cons pe L ih =>
    have hp := hL pe (List.mem_cons_self pe L)
    have ih' := ih fun r hr => hL r (List.mem_cons_of_mem pe hr)
    rw [prodPE_cons, List.map_cons, List.mem_cons]
    constructor
    · intro hdvd
      rcases (Nat.Prime.dvd_mul hq).mp hdvd with h | h
      · exact Or.inl ((Nat.prime_dvd_prime_iff_eq hq hp.1).mp (hq.dvd_of_dvd_pow h))
      · exact Or.inr (ih'.mp h)
    · intro hmem
      rcases hmem with h | h
      · subst h
        exact Dvd.dvd.mul_right (dvd_pow_self pe.1 hp.2.ne') _
      · exact Dvd.dvd.mul_left (ih'.mpr h) _

/-- The multiplicity recorded for each key is the exact `p`-adic valuation of
the reconstructed product. -/
theorem factorization_of_list (L : List (Nat × Nat))
    (hL : ∀ pe ∈ L, pe.1.Prime ∧ 0 < pe.2)
    (hnd : (L.map Prod.fst).Pairwise (· ≠ ·)) :
    ∀ pe ∈ L, (prodPE L).factorization pe.1 = pe.2 := by
  induction L with
  | nil => simp
  | cons qf L ih =>
    rw [List.map_cons, List.pairwise_cons] at hnd
    have hq := hL qf (List.mem_cons_self qf L)
    have hL' : ∀ pe ∈ L, pe.1.Prime ∧ 0 < pe.2 :=
      fun pe hpe => hL pe (List.mem_cons_of_mem qf hpe)
    have hMpos : 0 < prodPE L := prodPE_pos L (fun pe hpe => (hL' pe hpe).1.pos)
    have hqM : ¬ qf.1 ∣ prodPE L := by
      intro hdvd
      rcases List.mem_map.mp ((prime_dvd_prodPE L hL' qf.1 hq.1).mp hdvd) with
        ⟨pe, hpe, hkey⟩
      exact hnd.1 pe.1 (List.mem_map_of_mem Prod.fst hpe) hkey.symm
    intro pe hpe
    rcases List.mem_cons.mp hpe with hpe | hpe
    · subst hpe
      rw [prodPE_cons,
        Nat.factorization_mul (pow_ne_zero _ hq.1.pos.ne') hMpos.ne']
      simp only [Finsupp.add_apply, hq.1.factorization_pow, Finsupp.single_eq_same,
        Nat.factorization_eq_zero_of_not_dvd hqM, Nat.add_zero]
    · have hne : qf.1 ≠ pe.1 := hnd.1 pe.1 (List.mem_map_of_mem Prod.fst hpe)
      rw [prodPE_cons,
        Nat.factorization_mul (pow_ne_zero _ hq.1.pos.ne') hMpos.ne']
      simp only [Finsupp.add_apply, hq.1.factorization_pow,
        Finsupp.single_eq_of_ne hne, Nat.zero_add]
      exact ih hL' hnd.2 pe hpe

/-- Strictly increasing keys are pairwise distinct. -/
theorem pairwise_ne_of_lt {l : List Nat} (h : l.Pairwise (· < ·)) :
    l.Pairwise (· ≠ ·) :=
  h.imp Nat.ne_of_lt

theorem factorize_key_prime (n : Nat) (hn : 1 ≤ n) :
    ∀ pe ∈ factorize n, pe.1.Prime ∧ 0 < pe.2 :=
  (factorize_spec n hn).1

theorem factorize_prod (n : Nat) (hn : 1 ≤ n) : prodPE (factorize n) = n :=
  (factorize_spec n hn).2.1

theorem factorize_keys_ne (n : Nat) (hn : 1 ≤ n) :
    ((factorize n).map Prod.fst).Pairwise (· ≠ ·) :=
  pairwise_ne_of_lt (factorize_spec n hn).2.2

/-- A prime divides `n` iff it is a key of `factorize n`. -/
theorem prime_dvd_iff_key (n : Nat) (hn : 1 ≤ n) (q : Nat) (hq : q.Prime) :
    q ∣ n ↔ q ∈ (factorize n).map Prod.fst := by
  conv_lhs => rw [← factorize_prod n hn]
  exact prime_dvd_prodPE (factorize n) (factorize_key_prime n hn) q hq

/-- Each key's recorded multiplicity is its exact multiplicity in `n`. -/
theorem factorize_multiplicity (n : Nat) (hn : 1 ≤ n) :
    ∀ pe ∈ factorize n, n.factorization pe.1 = pe.2 := by
  intro pe hpe
  conv_lhs => rw [← factorize_prod n hn]
  exact factorization_of_list (factorize n) (factorize_key_prime n hn)
    (factorize_keys_ne n hn) pe hpe

/-- The key set of `factorize n` is exactly `n.primeFactors`. -/
theorem factorize_keys_toFinset (n : Nat) (hn : 1 ≤ n) :
    ((factorize n).map Prod.fst).toFinset = n.primeFactors := by
  ext q
  rw [List.mem_toFinset, Nat.mem_primeFactors]
  constructor
  · intro hmem
    rcases List.mem_map.mp hmem with ⟨pe, hpe, hkey⟩
    subst hkey
    exact ⟨(factorize_key_prime n hn pe hpe).1,
      (prime_dvd_iff_key n hn pe.1 (factorize_key_prime n hn pe hpe).1).mpr hmem,
      by omega⟩
  · intro ⟨hq, hdvd, _⟩
    exact (prime_dvd_iff_key n hn q hq).mp hdvd

/-! ### Correctness of `compute_phi` -/

theorem compute_phi_fold (L : List (Nat × Nat)) :
    (∀ pe ∈ L, pe.1.Prime ∧ 0 < pe.2) →
    ((L.map Prod.fst).Pairwise (· ≠ ·)) →
    ∀ C : Nat, L.foldl (fun acc pe => acc / pe.1 * (pe.1 - 1)) (C * prodPE L) =
      C * Nat.totient (prodPE L) := by
  induction L with
  | nil => intro _ _ C; simp
  | cons pe L ih =>
    intro hL hnd C
    obtain ⟨p, e⟩ := pe
    rw [List.map_cons, List.pairwise_cons] at hnd
    have hp := hL (p, e) (List.mem_cons_self _ L)
    simp only at hp
    have hL' : ∀ q ∈ L, q.1.Prime ∧ 0 < q.2 :=
      fun q hq => hL q (List.mem_cons_of_mem _ hq)
    have hpM : ¬ p ∣ prodPE L := by
      intro hdvd
      rcases List.mem_map.mp ((prime_dvd_prodPE L hL' p hp.1).mp hdvd) with
        ⟨q, hq, hkey⟩
      exact hnd.1 q.1 (List.mem_map_of_mem Prod.fst hq) hkey.symm
    have hcop : Nat.Coprime (p ^ e) (prodPE L) :=
      Nat.Coprime.pow_left _ ((Nat.Prime.coprime_iff_not_dvd hp.1).mpr hpM)
    obtain ⟨e', rfl⟩ := Nat.exists_eq_succ_of_ne_zero hp.2.ne'
    simp only [prodPE_cons, List.foldl_cons]
    have hstep : C * (p ^ (e' + 1) * prodPE L) / p * (p - 1)
        = (C * (p ^ e' * (p - 1))) * prodPE L := by
      have h1 : C * (p ^ (e' + 1) * prodPE L) = C * p ^ e' * prodPE L * p := by
        ring
      rw [h1, Nat.mul_div_cancel _ hp.1.pos]
      ring
    rw [hstep, ih hL' hnd.2]
    have hconv : Nat.totient (p ^ (e' + 1)) = p ^ e' * (p - 1) := by
      rw [Nat.totient_prime_pow hp.1 (Nat.succ_pos e')]
      simp
    calc C * (p ^ e' * (p - 1)) * (prodPE L).totient
        = C * ((p ^ (e' + 1)).totient * (prodPE L).totient) := by rw [hconv]; ring
      _ = C * (p ^ (e' + 1) * prodPE L).totient := by rw [Nat.totient_mul hcop]

/-- The `phi` computed by `compute_phi` from the `factorize` list is Euler's
totient. -/
theorem phiOf_eq_totient (n : Nat) (hn : 1 ≤ n) : phiOf n = Nat.totient n := by
  have h := compute_phi_fold (factorize n) (factorize_key_prime n hn)
    (factorize_keys_ne n hn) 1
  rw [one_mul, one_mul, factorize_prod n hn] at h
  exact h

theorem foldl_mul_eq_prodPE (L : List (Nat × Nat)) :
    ∀ c : Nat, L.foldl (fun acc pe => acc * pe.1 ^ pe.2) c = c * prodPE L := by
  induction L with
  | nil => intro c; simp
  | cons pe L ih =>
    intro c
    simp only [List.foldl_cons, prodPE_cons, ih]
    ring

/-! ### Analysis of `ModInt.decompose` -/

/-- Keys of `L` dividing `w`: the primes contributing to the nilpotent part. -/
def selDiv (L : List (Nat × Nat)) (w : Nat) : List (Nat × Nat) :=
  L.filter (fun pe => w % pe.1 = 0)

/-- `k` as accumulated by `decompose`: product of `p ^ e` over dividing keys. -/
def prodSel (L : List (Nat × Nat)) (w : Nat) : Nat := prodPE (selDiv L w)

/-- `nul_pow_p` for multiplicities `e` (in the modulus) and `ve` (in the
value, clipped): `e / ve`, minus one exactly when `ve` divides `e`. -/
def nulP (e ve : Nat) : Int :=
  ((e / ve : Nat) : Int) - (if e % ve = 0 then 1 else 0)

/-- `nul_pow` as accumulated by `decompose` over the dividing keys of `L`. -/
def nulSel (L : List (Nat × Nat)) (w : Nat) : Int :=
  (selDiv L w).foldr
    (fun pe acc => max (nulP pe.2 (min (w.factorization pe.1) pe.2)) acc) (-1)

@[simp] theorem selDiv_nil (w : Nat) : selDiv [] w = [] := rfl

theorem selDiv_cons_pos (p e w : Nat) (L : List (Nat × Nat)) (h : w % p = 0) :
    selDiv ((p, e) :: L) w = (p, e) :: selDiv L w := by
  simp [selDiv, List.filter_cons, h]

theorem selDiv_cons_neg (p e w : Nat) (L : List (Nat × Nat)) (h : ¬ w % p = 0) :
    selDiv ((p, e) :: L) w = selDiv L w := by
  simp [selDiv, List.filter_cons, h]

theorem prodPE_filter_dvd (L : List (Nat × Nat)) (q : Nat × Nat → Bool) :
    prodPE (L.filter q) ∣ prodPE L := by
  induction L with
  | nil => simp
  | cons pe L ih =>
    rw [List.filter_cons]
    by_cases h : q pe
    · rw [if_pos h, prodPE_cons, prodPE_cons]
      exact mul_dvd_mul_left _ ih
    · rw [if_neg h, prodPE_cons]
      exact ih.mul_left _

theorem prodSel_dvd (L : List (Nat × Nat)) (w : Nat) : prodSel L w ∣ prodPE L :=
  prodPE_filter_dvd L _

theorem countClip_succ (p value s : Nat) :
    countClip p value (s + 1) =
      if value % p = 0 then
        ((countClip p (value / p) s).1 + 1, (countClip p (value / p) s).2)
      else (0, value) := rfl

theorem countClip_zero_val (p : Nat) : ∀ s, countClip p 0 s = (s, 0) := by
  intro s
  induction s with
  | zero => rfl
  | succ s ih => rw [countClip_succ]; simp [ih]

theorem factorization_div_prime (p w : Nat) (hp : p.Prime) (hw : 0 < w)
    (hdvd : p ∣ w) : (w / p).factorization p = w.factorization p - 1 := by
  have hwp : 0 < w / p := Nat.div_pos (Nat.le_of_dvd hw hdvd) hp.pos
  have hsplit : p * (w / p) = w := Nat.mul_div_cancel' hdvd
  have h : w.factorization p = (w / p).factorization p + 1 := by
    conv_lhs => rw [← hsplit]
    rw [Nat.factorization_mul hp.pos.ne' hwp.ne']
    simp [hp.factorization]
    omega
  omega

theorem countClip_spec (p : Nat) (hp : p.Prime) :
    ∀ (s w : Nat), 0 < w →
      countClip p w s =
        (min (w.factorization p) s, w / p ^ (min (w.factorization p) s)) := by
  intro s
  induction s with
  | zero => intro w hw; simp [countClip]
  | succ s ih =>
    intro w hw
    by_cases h : w % p = 0
    · have hdvd := Nat.dvd_of_mod_eq_zero h
      have hwp : 0 < w / p := Nat.div_pos (Nat.le_of_dvd hw hdvd) hp.pos
      have hone : 1 ≤ w.factorization p :=
        (hp.dvd_iff_one_le_factorization hw.ne').mp hdvd
      rw [countClip_succ, if_pos h, ih (w / p) hwp,
        factorization_div_prime p w hp hw hdvd]
      have hmin : min (w.factorization p - 1) s + 1 =
          min (w.factorization p) (s + 1) := by omega
      refine Prod.ext (by simp only [hmin]) ?_
      simp only
      rw [Nat.div_div_eq_div_mul, ← pow_succ', hmin]
    · have hfac0 : w.factorization p = 0 :=
        Nat.factorization_eq_zero_of_not_dvd
          (fun hd => h (Nat.mod_eq_zero_of_dvd hd))
      rw [countClip_succ, if_neg h]
      simp [hfac0]

theorem decompBody_eq (np : Int) (w m k : Nat) (p e : Nat) :
    decompBody (np, w, m, k) (p, e) =
      if w % p = 0 then
        (max (((e / (1 + (countClip p (w / p) (e - 1)).1) : Nat) : Int) -
            (if e % (1 + (countClip p (w / p) (e - 1)).1) = 0 then 1 else 0)) np,
          (countClip p (w / p) (e - 1)).2, m / p ^ e, k * p ^ e)
      else (np, w, m, k) := rfl

theorem foldr_max_congr {α : Type} (l : List α) (f g : α → Int) (b : Int)
    (h : ∀ x ∈ l, f x = g x) :
    l.foldr (fun x acc => max (f x) acc) b =
      l.foldr (fun x acc => max (g x) acc) b := by
  induction l with
  | nil => rfl
  | cons x l ih =>
    simp only [List.foldr_cons]
    rw [h x (List.mem_cons_self x l),
      ih (fun y hy => h y (List.mem_cons_of_mem x hy))]

/-- Master lemma for the `decompose` fold over the prime-factor list. -/
theorem decompBody_fold (L : List (Nat × Nat)) :
    (∀ pe ∈ L, pe.1.Prime ∧ 0 < pe.2) →
    ((L.map Prod.fst).Pairwise (· ≠ ·)) →
    ∀ (np : Int) (w m k : Nat), 0 < w → -1 ≤ np → prodSel L w ∣ m →
      ∃ w', L.foldl decompBody (np, w, m, k) =
        (max np (nulSel L w), w', m / prodSel L w, k * prodSel L w) := by
  induction L with
  | nil =>
    intro _ _ np w m k hw hnp _
    refine ⟨w, ?_⟩
    simp only [List.foldl_nil, nulSel, selDiv_nil, List.foldr_nil, prodSel,
      prodPE_nil, Nat.div_one, mul_one, max_eq_left hnp]
  | cons pe L ih =>
    intro hL hnd np w m k hw hnp hdvdm
    obtain ⟨p, e⟩ := pe
    rw [List.map_cons, List.pairwise_cons] at hnd
    have hp := hL (p, e) (List.mem_cons_self _ L)
    simp only at hp
    have hL' : ∀ q ∈ L, q.1.Prime ∧ 0 < q.2 :=
      fun q hq => hL q (List.mem_cons_of_mem _ hq)
    by_cases h : w % p = 0
    · -- the key contributes to the nilpotent part
      have hdvd : p ∣ w := Nat.dvd_of_mod_eq_zero h
      have hone : 1 ≤ w.factorization p :=
        (hp.1.dvd_iff_one_le_factorization hw.ne').mp hdvd
      have hwp : 0 < w / p := Nat.div_pos (Nat.le_of_dvd hw hdvd) hp.1.pos
      have hcc := countClip_spec p hp.1 (e - 1) (w / p) hwp
      rw [factorization_div_prime p w hp.1 hw hdvd] at hcc
      have hminEq : min (w.factorization p - 1) (e - 1) + 1 =
          min (w.factorization p) e := by
        have := hp.2
        omega
      have hve : 1 + (countClip p (w / p) (e - 1)).1 =
          min (w.factorization p) e := by
        rw [hcc]
        simp only
        omega
      have hveone : 1 ≤ min (w.factorization p) e := by omega
      have hvele : min (w.factorization p) e ≤ w.factorization p := min_le_left _ _
      have hpve_dvd : p ^ min (w.factorization p) e ∣ w :=
        (hp.1.pow_dvd_iff_le_factorization hw.ne').mpr hvele
      have hw2 : (countClip p (w / p) (e - 1)).2 =
          w / p ^ min (w.factorization p) e := by
        rw [hcc]
        simp only
        rw [Nat.div_div_eq_div_mul, ← pow_succ', hminEq]
      have hw2pos : 0 < w / p ^ min (w.factorization p) e :=
        Nat.div_pos (Nat.le_of_dvd hw hpve_dvd) (pow_pos hp.1.pos _)
      set w2 := w / p ^ min (w.factorization p) e with hw2def
      have hsplit : p ^ min (w.factorization p) e * w2 = w :=
        Nat.mul_div_cancel' hpve_dvd
      -- each other key sees the same divisibility and multiplicity in w2
      have hkey_fac : ∀ q : Nat, q ≠ p → w2.factorization q = w.factorization q := by
        intro q hq
        conv_rhs => rw [← hsplit]
        rw [Nat.factorization_mul (pow_ne_zero _ hp.1.pos.ne') hw2pos.ne']
        simp [hp.1.factorization_pow, Finsupp.single_apply, Ne.symm hq]
      have hkey_dvd : ∀ q : Nat, q.Prime → q ≠ p → (q ∣ w2 ↔ q ∣ w) := by
        intro q hq hqp
        constructor
        · intro hd
          exact hd.trans (Dvd.intro_left _ hsplit)
        · intro hd
          rw [← hsplit] at hd
          rcases (Nat.Prime.dvd_mul hq).mp hd with hd | hd
          · exact absurd ((Nat.prime_dvd_prime_iff_eq hq hp.1).mp
              (hq.dvd_of_dvd_pow hd)) hqp
          · exact hd
      have hsel : selDiv L w2 = selDiv L w := by
        unfold selDiv
        refine List.filter_congr ?_
        intro q hq
        have hqp := hL' q hq
        have hqne : q.1 ≠ p := fun hcontra =>
          hnd.1 q.1 (List.mem_map_of_mem Prod.fst hq) hcontra.symm
        have := hkey_dvd q.1 hqp.1 hqne
        simp only [decide_eq_decide]
        constructor
        · intro h0
          exact Nat.mod_eq_zero_of_dvd (this.mp (Nat.dvd_of_mod_eq_zero h0))
        · intro h0
          exact Nat.mod_eq_zero_of_dvd (this.mpr (Nat.dvd_of_mod_eq_zero h0))
      have hnul : nulSel L w2 = nulSel L w := by
        unfold nulSel
        rw [hsel]
        refine foldr_max_congr _ _ _ _ ?_
        intro q hq
        have hqmem : q ∈ L := List.mem_of_mem_filter hq
        have hqne : q.1 ≠ p := fun hcontra =>
          hnd.1 q.1 (List.mem_map_of_mem Prod.fst hqmem) hcontra.symm
        rw [hkey_fac q.1 hqne]
      -- assemble the step
      have hstep : decompBody (np, w, m, k) (p, e) =
          (max (nulP e (min (w.factorization p) e)) np, w2,
            m / p ^ e, k * p ^ e) := by
        rw [decompBody_eq, if_pos h, hve, hw2, nulP]
      have hprodsel : prodSel ((p, e) :: L) w = p ^ e * prodSel L w := by
        unfold prodSel
        rw [selDiv_cons_pos p e w L h, prodPE_cons]
      have hpe_dvd_m : p ^ e ∣ m := by
        refine dvd_trans ?_ hdvdm
        rw [hprodsel]
        exact Dvd.intro _ rfl
      have hselProd : prodSel L w2 = prodSel L w := by
        unfold prodSel
        rw [hsel]
      have hdvdm' : prodSel L w2 ∣ m / p ^ e := by
        rw [Nat.dvd_div_iff_mul_dvd hpe_dvd_m, hselProd, ← hprodsel]
        exact hdvdm
      obtain ⟨w', hrec⟩ := ih hL' hnd.2
        (max (nulP e (min (w.factorization p) e)) np) w2 (m / p ^ e) (k * p ^ e)
        hw2pos (le_trans hnp (le_max_right _ _)) hdvdm'
      refine ⟨w', ?_⟩
      rw [List.foldl_cons, hstep, hrec]
      have hnulcons : nulSel ((p, e) :: L) w =
          max (nulP e (min (w.factorization p) e)) (nulSel L w) := by
        unfold nulSel
        rw [selDiv_cons_pos p e w L h, List.foldr_cons]
      rw [hselProd, hnul, hnulcons, hprodsel]
      refine Prod.ext ?_ (Prod.ext rfl (Prod.ext ?_ ?_))
      · simp only
        rw [max_comm (nulP e (min (w.factorization p) e)) np, max_assoc]
      · simp only
        rw [Nat.div_div_eq_div_mul]
      · simp only
        rw [mul_assoc]
    · -- the key does not divide the value: state unchanged
      have hstep : decompBody (np, w, m, k) (p, e) = (np, w, m, k) := by
        rw [decompBody_eq, if_neg h]
      have hselc : selDiv ((p, e) :: L) w = selDiv L w := selDiv_cons_neg p e w L h
      have hdvdm' : prodSel L w ∣ m := by
        unfold prodSel
        unfold prodSel at hdvdm
        rw [hselc] at hdvdm
        exact hdvdm
      obtain ⟨w', hrec⟩ := ih hL' hnd.2 np w m k hw hnp hdvdm'
      refine ⟨w', ?_⟩
      rw [List.foldl_cons, hstep, hrec]
      unfold prodSel nulSel
      rw [hselc]

/-- Characterisation of `decompose` for a nonzero value. -/
theorem decompose_eq (a : ModInt) (hn : 1 ≤ a.ring.n) (hv : 0 < a.value) :
    a.decompose = (max (-1) (nulSel (factorize a.ring.n) a.value),
      prodSel (factorize a.ring.n) a.value,
      a.ring.n / prodSel (factorize a.ring.n) a.value) := by
  have hdvd : prodSel (factorize a.ring.n) a.value ∣ a.ring.n := by
    have h := prodSel_dvd (factorize a.ring.n) a.value
    rwa [factorize_prod a.ring.n hn] at h
  obtain ⟨w', hfold⟩ := decompBody_fold (factorize a.ring.n)
    (factorize_key_prime _ hn) (factorize_keys_ne _ hn)
    (-1) a.value a.ring.n 1 hv le_rfl hdvd
  unfold ModInt.decompose ModRing.prime_factors
  rw [hfold]
  simp only [one_mul]

theorem decompBody_fold_zero (L : List (Nat × Nat)) :
    (∀ pe ∈ L, pe.1.Prime ∧ 0 < pe.2) →
    ∀ (np : Int) (m k : Nat), prodPE L ∣ m →
      L.foldl decompBody (np, 0, m, k) =
        ((if L = [] then np else max np 0), 0, m / prodPE L, k * prodPE L) := by
  induction L with
  | nil =>
    intro _ np m k _
    simp
  | cons pe L ih =>
    intro hL np m k hdvd
    obtain ⟨p, e⟩ := pe
    have hp := hL (p, e) (List.mem_cons_self _ L)
    simp only at hp
    have hstep : decompBody (np, 0, m, k) (p, e) =
        (max 0 np, 0, m / p ^ e, k * p ^ e) := by
      rw [decompBody_eq, if_pos (Nat.zero_mod p), Nat.zero_div,
        countClip_zero_val]
      simp only
      have h1 : 1 + (e - 1) = e := by omega
      rw [h1, Nat.div_self hp.2, Nat.mod_self]
      simp
    have hProdCons : prodPE ((p, e) :: L) = p ^ e * prodPE L := by
      simp [prodPE_cons]
    have hdvd2 : p ^ e * prodPE L ∣ m := by
      rw [← hProdCons]
      exact hdvd
    have hpe_dvd : p ^ e ∣ m := dvd_trans (Dvd.intro _ rfl) hdvd2
    have hdvd' : prodPE L ∣ m / p ^ e := by
      rw [Nat.dvd_div_iff_mul_dvd hpe_dvd]
      exact hdvd2
    rw [List.foldl_cons, hstep,
      ih (fun q hq => hL q (List.mem_cons_of_mem _ hq)) (max 0 np)
        (m / p ^ e) (k * p ^ e) hdvd']
    rw [if_neg (List.cons_ne_nil (p, e) L), hProdCons]
    refine Prod.ext ?_ (Prod.ext rfl (Prod.ext ?_ ?_))
    · simp only
      by_cases hLnil : L = []
      · rw [if_pos hLnil, max_comm]
      · rw [if_neg hLnil, max_comm 0 np, max_assoc, max_self]
    · simp only
      rw [Nat.div_div_eq_div_mul]
    · simp only
      rw [mul_assoc]

/-- `decompose` on the zero element of a ring with `n ≥ 2`:
every prime divides 0, so `k` saturates to `n` and `m` collapses to 1. -/
theorem decompose_zero (a : ModInt) (hn : 2 ≤ a.ring.n) (hv : a.value = 0) :
    a.decompose = (0, a.ring.n, 1) := by
  have hn1 : 1 ≤ a.ring.n := by omega
  have hne : factorize a.ring.n ≠ [] := by
    intro hcontra
    have h := factorize_prod a.ring.n hn1
    rw [hcontra, prodPE_nil] at h
    omega
  have hfold := decompBody_fold_zero (factorize a.ring.n)
    (factorize_key_prime _ hn1) (-1) a.ring.n 1
    (by rw [factorize_prod _ hn1])
  unfold ModInt.decompose ModRing.prime_factors
  rw [hv, hfold, if_neg hne, factorize_prod _ hn1]
  simp only [Nat.div_self (by omega : 0 < a.ring.n), one_mul]
  refine Prod.ext ?_ rfl
  simp only
  rw [max_eq_right (by norm_num : (-1 : Int) ≤ 0)]

/-- `is_coprime` agrees with arithmetic coprimality of value and modulus. -/
theorem is_coprime_iff (a : ModInt) (hn : 1 ≤ a.ring.n) :
    a.is_coprime = true ↔ Nat.Coprime a.value a.ring.n := by
  unfold ModInt.is_coprime ModRing.prime_factors
  rw [List.all_eq_true]
  constructor
  · intro h
    by_contra hcop
    rcases Nat.Prime.not_coprime_iff_dvd.mp hcop with ⟨p, hp, hpv, hpn⟩
    rcases List.mem_map.mp ((prime_dvd_iff_key a.ring.n hn p hp).mp hpn) with
      ⟨pe, hpe, hkeq⟩
    have h2 := h pe hpe
    simp only [bne_iff_ne, ne_eq] at h2
    exact h2 (by rw [hkeq]; exact Nat.mod_eq_zero_of_dvd hpv)
  · intro hcop pe hpe
    simp only [bne_iff_ne, ne_eq]
    intro h0
    have hp := factorize_key_prime a.ring.n hn pe hpe
    have hdvd : pe.1 ∣ a.value := Nat.dvd_of_mod_eq_zero h0
    have hdvdn : pe.1 ∣ a.ring.n := (prime_dvd_iff_key a.ring.n hn pe.1 hp.1).mpr
      (List.mem_map_of_mem Prod.fst hpe)
    have hg : Nat.gcd a.value a.ring.n = 1 := hcop
    have h1 : pe.1 ∣ 1 := hg ▸ Nat.dvd_gcd hdvd hdvdn
    exact hp.1.one_lt.ne' (Nat.eq_one_of_dvd_one h1)

/-! ### Exponentiation correctness -/

theorem emod_toNat (e : Int) (k : Nat) (he : 0 ≤ e) :
    (e % (k : Int)).toNat = e.toNat % k := by
  obtain ⟨n, rfl⟩ := Int.eq_ofNat_of_zero_le he
  rw [show ((n : Int)) % (k : Int) = ((n % k : Nat) : Int) from
    (Int.natCast_mod n k).symm]
  rfl

theorem neg_one_emod (k : Nat) (hk : 1 ≤ k) :
    (-1 : Int) % (k : Int) = (k : Int) - 1 := by
  have h1 : ((-1 : Int) + (k : Int) * 1) % (k : Int) = (-1 : Int) % (k : Int) :=
    Int.add_mul_emod_self_left (-1 : Int) (k : Int) 1
  have h2 : ((-1 : Int) + (k : Int) * 1) = (k : Int) - 1 := by ring
  rw [h2] at h1
  rw [← h1]
  exact Int.emod_eq_of_lt (by omega) (by omega)

/-- Reducing the exponent modulo `φ n` does not change the power, for a base
coprime to `n` (Euler). -/
theorem pow_mod_totient (v n e : Nat) (hcop : Nat.Coprime v n) :
    v ^ (e % Nat.totient n) ≡ v ^ e [MOD n] := by
  have h1 : (v ^ Nat.totient n) ^ (e / Nat.totient n) ≡ 1 [MOD n] := by
    have h := (Nat.ModEq.pow_totient hcop).pow (e / Nat.totient n)
    rwa [one_pow] at h
  calc v ^ (e % Nat.totient n)
      = 1 * v ^ (e % Nat.totient n) := (one_mul _).symm
    _ ≡ (v ^ Nat.totient n) ^ (e / Nat.totient n) * v ^ (e % Nat.totient n)
        [MOD n] := h1.symm.mul_right _
    _ = v ^ (Nat.totient n * (e / Nat.totient n) + e % Nat.totient n) := by
        rw [pow_add, pow_mul]
    _ = v ^ e := by rw [Nat.div_add_mod]

theorem le_foldr_max {α : Type} (f : α → Int) (b : Int) (l : List α) :
    b ≤ l.foldr (fun y acc => max (f y) acc) b ∧
    ∀ x ∈ l, f x ≤ l.foldr (fun y acc => max (f y) acc) b := by
  induction l with
  | nil => exact ⟨le_rfl, by simp⟩
  | cons y l ih =>
    refine ⟨le_trans ih.1 (le_max_right _ _), ?_⟩
    intro x hx
    rcases List.mem_cons.mp hx with h | h
    · subst h
      exact le_max_left _ _
    · exact le_trans (ih.2 x h) (le_max_right _ _)

theorem foldr_max_le {α : Type} (f : α → Int) (b B : Int) (l : List α)
    (hb : b ≤ B) (h : ∀ x ∈ l, f x ≤ B) :
    l.foldr (fun y acc => max (f y) acc) b ≤ B := by
  induction l with
  | nil => exact hb
  | cons y l ih =>
    exact max_le (h y (List.mem_cons_self y l))
      (ih fun x hx => h x (List.mem_cons_of_mem y hx))

/-- If the exponent strictly exceeds `nul_pow_p`, the clipped multiplicity
times the exponent reaches the modulus multiplicity. -/
theorem nulP_lt_imp (e ve ex : Nat) (hve : 1 ≤ ve) (he : 1 ≤ e)
    (hlt : nulP e ve < (ex : Int)) : e ≤ ve * ex := by
  unfold nulP at hlt
  have h3 := Nat.div_add_mod e ve
  have h4 := Nat.mod_lt e (show 0 < ve by omega)
  by_cases hdvd : e % ve = 0
  · rw [if_pos hdvd] at hlt
    have h1 : e / ve ≤ ex := by omega
    calc e = ve * (e / ve) := by omega
      _ ≤ ve * ex := Nat.mul_le_mul_left _ h1
  · rw [if_neg hdvd] at hlt
    have h1 : e / ve + 1 ≤ ex := by omega
    have h2 : e < ve * (e / ve + 1) := by
      have h5 : ve * (e / ve + 1) = ve * (e / ve) + ve := by ring
      omega
    calc e ≤ ve * (e / ve + 1) := le_of_lt h2
      _ ≤ ve * ex := Nat.mul_le_mul_left _ h1

theorem nulP_nonneg (e ve : Nat) (hve : 1 ≤ ve) (hle : ve ≤ e) :
    0 ≤ nulP e ve := by
  unfold nulP
  have h1 : 1 ≤ e / ve := (Nat.one_le_div_iff (by omega)).mpr hle
  by_cases hdvd : e % ve = 0
  · rw [if_pos hdvd]
    omega
  · rw [if_neg hdvd]
    omega

/-- The accumulated `k` divides `value ^ exponent` once the exponent exceeds
every `nul_pow_p` of the dividing keys. -/
theorem prodSel_dvd_pow (L : List (Nat × Nat)) :
    (∀ pe ∈ L, pe.1.Prime ∧ 0 < pe.2) →
    ((L.map Prod.fst).Pairwise (· ≠ ·)) →
    ∀ (w ex : Nat), 0 < w →
      (∀ pe ∈ selDiv L w,
        nulP pe.2 (min (w.factorization pe.1) pe.2) < (ex : Int)) →
      prodSel L w ∣ w ^ ex := by
  induction L with
  | nil =>
    intro _ _ w ex _ _
    simp [prodSel]
  | cons pe L ih =>
    intro hL hnd w ex hw hex
    obtain ⟨p, e⟩ := pe
    rw [List.map_cons, List.pairwise_cons] at hnd
    have hp := hL (p, e) (List.mem_cons_self _ L)
    simp only at hp
    have hL' : ∀ q ∈ L, q.1.Prime ∧ 0 < q.2 :=
      fun q hq => hL q (List.mem_cons_of_mem _ hq)
    by_cases h : w % p = 0
    · have hsel := selDiv_cons_pos p e w L h
      have hIH : prodSel L w ∣ w ^ ex :=
        ih hL' hnd.2 w ex hw
          (fun q hq => hex q (by rw [hsel]; exact List.mem_cons_of_mem _ hq))
      have hhead := hex (p, e) (by rw [hsel]; exact List.mem_cons_self _ _)
      simp only at hhead
      have hdvd : p ∣ w := Nat.dvd_of_mod_eq_zero h
      have hone : 1 ≤ w.factorization p :=
        (hp.1.dvd_iff_one_le_factorization hw.ne').mp hdvd
      have hve1 : 1 ≤ min (w.factorization p) e := by
        have := hp.2
        omega
      have hle : e ≤ min (w.factorization p) e * ex :=
        nulP_lt_imp e (min (w.factorization p) e) ex hve1 hp.2 hhead
      have hpve : p ^ min (w.factorization p) e ∣ w :=
        (hp.1.pow_dvd_iff_le_factorization hw.ne').mpr (min_le_left _ _)
      have hp_e : p ^ e ∣ w ^ ex := by
        refine (pow_dvd_pow p hle).trans ?_
        rw [pow_mul]
        exact pow_dvd_pow_of_dvd hpve ex
      have hnotdvd : ¬ p ∣ prodSel L w := by
        intro hcontra
        have hselsub : ∀ q ∈ selDiv L w, q.1.Prime ∧ 0 < q.2 :=
          fun q hq => hL' q (List.mem_of_mem_filter hq)
        rcases List.mem_map.mp
          ((prime_dvd_prodPE (selDiv L w) hselsub p hp.1).mp hcontra) with
          ⟨q, hq, hkey⟩
        exact hnd.1 q.1
          (List.mem_map_of_mem Prod.fst (List.mem_of_mem_filter hq)) hkey.symm
      have hcop : Nat.Coprime (p ^ e) (prodSel L w) :=
        Nat.Coprime.pow_left _ ((hp.1.coprime_iff_not_dvd).mpr hnotdvd)
      have hconsEq : prodSel ((p, e) :: L) w = p ^ e * prodSel L w := by
        unfold prodSel
        rw [hsel]
        simp [prodPE_cons]
      rw [hconsEq]
      exact hcop.mul_dvd_of_dvd_of_dvd hp_e hIH
    · have hsel := selDiv_cons_neg p e w L h
      have hconsEq : prodSel ((p, e) :: L) w = prodSel L w := by
        unfold prodSel
        rw [hsel]
      rw [hconsEq]
      exact ih hL' hnd.2 w ex hw (fun q hq => hex q (by rw [hsel]; exact hq))

theorem prodPE_filter_mul (L : List (Nat × Nat)) (q : Nat × Nat → Bool) :
    prodPE (L.filter q) * prodPE (L.filter (fun x => ! q x)) = prodPE L := by
  induction L with
  | nil => simp
  | cons pe L ih =>
    rw [List.filter_cons, List.filter_cons]
    by_cases h : q pe
    · rw [if_pos h, if_neg (by simp [h]), prodPE_cons, prodPE_cons, mul_assoc, ih]
    · rw [if_neg h, if_pos (by simp [h]), prodPE_cons, prodPE_cons, ← ih]
      ring

/-- Keys of `L` not dividing `w`: the coprime part of the modulus. -/
def notSel (L : List (Nat × Nat)) (w : Nat) : List (Nat × Nat) :=
  L.filter (fun pe => ! decide (w % pe.1 = 0))

theorem prodSel_mul_notSel (L : List (Nat × Nat)) (w : Nat) :
    prodSel L w * prodPE (notSel L w) = prodPE L :=
  prodPE_filter_mul L (fun pe => decide (w % pe.1 = 0))

theorem prodSel_pos (L : List (Nat × Nat))
    (hL : ∀ pe ∈ L, pe.1.Prime ∧ 0 < pe.2) (w : Nat) : 0 < prodSel L w :=
  prodPE_pos _ (fun pe hpe => (hL pe (List.mem_of_mem_filter hpe)).1.pos)

theorem div_prodSel_eq (n w : Nat) (hn : 1 ≤ n) :
    n / prodSel (factorize n) w = prodPE (notSel (factorize n) w) := by
  have hsplit := prodSel_mul_notSel (factorize n) w
  rw [factorize_prod n hn] at hsplit
  have hkpos : 0 < prodSel (factorize n) w :=
    prodSel_pos _ (factorize_key_prime n hn) w
  exact Nat.div_eq_of_eq_mul_right hkpos hsplit.symm

theorem coprime_w_notSel (n w : Nat) (hn : 1 ≤ n) :
    Nat.Coprime w (prodPE (notSel (factorize n) w)) := by
  by_contra h
  rcases Nat.Prime.not_coprime_iff_dvd.mp h with ⟨q, hq, hqw, hqnot⟩
  have hsub : ∀ pe ∈ notSel (factorize n) w, pe.1.Prime ∧ 0 < pe.2 :=
    fun pe hpe => factorize_key_prime n hn pe (List.mem_of_mem_filter hpe)
  rcases List.mem_map.mp
    ((prime_dvd_prodPE (notSel (factorize n) w) hsub q hq).mp hqnot) with
    ⟨pe, hpe, hkey⟩
  have hmem := List.of_mem_filter hpe
  simp only [Bool.not_eq_eq_eq_not, Bool.not_true, decide_eq_false_iff_not] at hmem
  exact hmem (by rw [hkey]; exact Nat.mod_eq_zero_of_dvd hqw)

theorem coprime_sel_notSel (n w : Nat) (hn : 1 ≤ n) :
    Nat.Coprime (prodSel (factorize n) w) (prodPE (notSel (factorize n) w)) := by
  by_contra h
  rcases Nat.Prime.not_coprime_iff_dvd.mp h with ⟨q, hq, hq1, hq2⟩
  have hsub1 : ∀ pe ∈ selDiv (factorize n) w, pe.1.Prime ∧ 0 < pe.2 :=
    fun pe hpe => factorize_key_prime n hn pe (List.mem_of_mem_filter hpe)
  have hsub2 : ∀ pe ∈ notSel (factorize n) w, pe.1.Prime ∧ 0 < pe.2 :=
    fun pe hpe => factorize_key_prime n hn pe (List.mem_of_mem_filter hpe)
  rcases List.mem_map.mp
    ((prime_dvd_prodPE (selDiv (factorize n) w) hsub1 q hq).mp hq1) with
    ⟨pe, hpe, hkey⟩
  rcases List.mem_map.mp
    ((prime_dvd_prodPE (notSel (factorize n) w) hsub2 q hq).mp hq2) with
    ⟨pf, hpf, hkeyf⟩
  have hmem1 := List.of_mem_filter hpe
  simp only [decide_eq_true_eq] at hmem1
  have hmem2 := List.of_mem_filter hpf
  simp only [Bool.not_eq_eq_eq_not, Bool.not_true, decide_eq_false_iff_not] at hmem2
  rw [hkey] at hmem1
  rw [hkeyf] at hmem2
  exact hmem2 hmem1

theorem selDiv_eq_nil_of_coprime (n v : Nat) (hn : 1 ≤ n)
    (hcop : Nat.Coprime v n) : selDiv (factorize n) v = [] := by
  unfold selDiv
  rw [List.filter_eq_nil_iff]
  intro pe hpe
  simp only [decide_eq_true_eq]
  intro h0
  have hp := factorize_key_prime n hn pe hpe
  have hdvd : pe.1 ∣ v := Nat.dvd_of_mod_eq_zero h0
  have hdvdn : pe.1 ∣ n := (prime_dvd_iff_key n hn pe.1 hp.1).mpr
    (List.mem_map_of_mem Prod.fst hpe)
  have hg : Nat.gcd v n = 1 := hcop
  have h1 : pe.1 ∣ 1 := hg ▸ Nat.dvd_gcd hdvd hdvdn
  exact hp.1.one_lt.ne' (Nat.eq_one_of_dvd_one h1)

theorem selDiv_ne_nil_of_not_coprime (n v : Nat) (hn : 1 ≤ n)
    (hcop : ¬ Nat.Coprime v n) : selDiv (factorize n) v ≠ [] := by
  rcases Nat.Prime.not_coprime_iff_dvd.mp hcop with ⟨q, hq, hqv, hqn⟩
  rcases List.mem_map.mp ((prime_dvd_iff_key n hn q hq).mp hqn) with
    ⟨pe, hpe, hkey⟩
  intro hnil
  have hmem : pe ∈ selDiv (factorize n) v := by
    unfold selDiv
    rw [List.mem_filter]
    refine ⟨hpe, ?_⟩
    simp only [decide_eq_true_eq]
    rw [hkey]
    exact Nat.mod_eq_zero_of_dvd hqv
  rw [hnil] at hmem
  exact List.not_mem_nil pe hmem

theorem nulSel_nonneg (n v : Nat) (hn : 1 ≤ n) (hv : 0 < v)
    (hne : selDiv (factorize n) v ≠ []) : 0 ≤ nulSel (factorize n) v := by
  obtain ⟨pe, hpe⟩ := List.exists_mem_of_ne_nil _ hne
  have hkp := factorize_key_prime n hn pe (List.mem_of_mem_filter hpe)
  have hmod := List.of_mem_filter hpe
  simp only [decide_eq_true_eq] at hmod
  have hdvd : pe.1 ∣ v := Nat.dvd_of_mod_eq_zero hmod
  have hone : 1 ≤ v.factorization pe.1 :=
    (hkp.1.dvd_iff_one_le_factorization hv.ne').mp hdvd
  have hge := (le_foldr_max
    (fun pe => nulP pe.2 (min (v.factorization pe.1) pe.2)) (-1)
    (selDiv (factorize n) v)).2 pe hpe
  have hnn : 0 ≤ nulP pe.2 (min (v.factorization pe.1) pe.2) :=
    nulP_nonneg _ _ (by have := hkp.2; omega) (min_le_right _ _)
  exact le_trans hnn hge

/-- `decompose` returns the sentinel on coprime nonzero values. -/
theorem decompose_coprime (r : ModRing) (v : Nat) (hn : 1 ≤ r.n) (hv : 0 < v)
    (hcop : Nat.Coprime v r.n) :
    (ModInt.decompose ⟨r, v⟩) = (-1, 1, r.n) := by
  have hnil : selDiv (factorize r.n) v = [] :=
    selDiv_eq_nil_of_coprime r.n v hn hcop
  rw [decompose_eq ⟨r, v⟩ hn hv]
  unfold prodSel nulSel
  rw [hnil]
  simp

/-- The one central congruence behind the fast path: beyond `nul_pow`, the
value's power agrees with `k ^ φ(m) · value ^ (exponent mod φ(m))` mod `n`. -/
theorem fast_modeq (n v ex : Nat) (hn : 1 ≤ n) (hv : 0 < v)
    (hex : nulSel (factorize n) v < (ex : Int)) :
    prodSel (factorize n) v ^ phiOf (n / prodSel (factorize n) v) *
      v ^ (ex % phiOf (n / prodSel (factorize n) v)) ≡ v ^ ex [MOD n] := by
  have hkeyp := factorize_key_prime n hn
  have hknd := factorize_keys_ne n hn
  have hkpos : 0 < prodSel (factorize n) v := prodSel_pos _ hkeyp v
  have hkdvd_n : prodSel (factorize n) v ∣ n := by
    have h := prodSel_dvd (factorize n) v
    rwa [factorize_prod n hn] at h
  have hm_eq : n / prodSel (factorize n) v = prodPE (notSel (factorize n) v) :=
    div_prodSel_eq n v hn
  have hmpos : 0 < n / prodSel (factorize n) v :=
    Nat.div_pos (Nat.le_of_dvd (by omega) hkdvd_n) hkpos
  have hkm : prodSel (factorize n) v * (n / prodSel (factorize n) v) = n :=
    Nat.mul_div_cancel' hkdvd_n
  have hφ : phiOf (n / prodSel (factorize n) v) =
      Nat.totient (n / prodSel (factorize n) v) :=
    phiOf_eq_totient _ hmpos
  have hcop_vm : Nat.Coprime v (n / prodSel (factorize n) v) := by
    rw [hm_eq]
    exact coprime_w_notSel n v hn
  have hcop_km : Nat.Coprime (prodSel (factorize n) v)
      (n / prodSel (factorize n) v) := by
    rw [hm_eq]
    exact coprime_sel_notSel n v hn
  have hkdvd : prodSel (factorize n) v ∣ v ^ ex := by
    refine prodSel_dvd_pow (factorize n) hkeyp hknd v ex hv ?_
    intro pe hpe
    exact lt_of_le_of_lt
      ((le_foldr_max (fun pe => nulP pe.2 (min (v.factorization pe.1) pe.2))
        (-1) (selDiv (factorize n) v)).2 pe hpe) hex
  have hφpos : 0 < Nat.totient (n / prodSel (factorize n) v) :=
    Nat.totient_pos.mpr hmpos
  have h1 : prodSel (factorize n) v ^ Nat.totient (n / prodSel (factorize n) v)
      ≡ 1 [MOD n / prodSel (factorize n) v] := Nat.ModEq.pow_totient hcop_km
  have h2 : v ^ (ex % Nat.totient (n / prodSel (factorize n) v))
      ≡ v ^ ex [MOD n / prodSel (factorize n) v] :=
    pow_mod_totient v _ ex hcop_vm
  have hMm : prodSel (factorize n) v ^ Nat.totient (n / prodSel (factorize n) v) *
      v ^ (ex % Nat.totient (n / prodSel (factorize n) v))
      ≡ v ^ ex [MOD n / prodSel (factorize n) v] := by
    have h3 := h1.mul h2
    rwa [one_mul] at h3
  have hMk : prodSel (factorize n) v ^ Nat.totient (n / prodSel (factorize n) v) *
      v ^ (ex % Nat.totient (n / prodSel (factorize n) v))
      ≡ v ^ ex [MOD prodSel (factorize n) v] := by
    have ha : prodSel (factorize n) v ∣
        prodSel (factorize n) v ^ Nat.totient (n / prodSel (factorize n) v) *
          v ^ (ex % Nat.totient (n / prodSel (factorize n) v)) :=
      Dvd.dvd.mul_right (dvd_pow_self _ hφpos.ne') _
    exact (Nat.modEq_zero_iff_dvd.mpr ha).trans
      (Nat.modEq_zero_iff_dvd.mpr hkdvd).symm
  have hcrt := (Nat.modEq_and_modEq_iff_modEq_mul hcop_km).mp ⟨hMk, hMm⟩
  rw [hkm] at hcrt
  rw [hφ]
  exact hcrt

/-! ### Branch evaluations of `ModInt.pow` -/

theorem pow_eval_zero (a : ModInt) (ex : Int) (s : Bool) (h : a.value = 0) :
    a.pow ex s = .err .invalidOp := by
  unfold ModInt.pow
  rw [if_pos h]

theorem pow_eval_one (a : ModInt) (ex : Int) (s : Bool) (h0 : a.value ≠ 0)
    (h : ex = 0 ∨ a.value = 1) :
    a.pow ex s = .ok (ModInt.mkN 1 a.ring) := by
  unfold ModInt.pow
  rw [if_neg h0, if_pos h]

theorem pow_eval_neg (a : ModInt) (ex : Int) (s : Bool) (h0 : a.value ≠ 0)
    (h1 : a.value ≠ 1) (hneg : ex < 0) :
    a.pow ex s =
      if a.is_coprime then
        .ok (ModInt.mkN (a.value ^ (ex % (a.ring.phi : Int)).toNat) a.ring)
      else .err .invalidOp := by
  unfold ModInt.pow
  rw [if_neg h0, if_neg (by push_neg; exact ⟨by omega, h1⟩), if_pos hneg]

theorem pow_eval_pos_short (a : ModInt) (ex : Int) (h0 : a.value ≠ 0)
    (h1 : a.value ≠ 1) (hpos : 0 < ex) :
    a.pow ex true =
      if a.decompose.1 = -1 then
        .ok (ModInt.mkN (a.value ^ (ex % (a.ring.phi : Int)).toNat) a.ring)
      else if ex > a.decompose.1 then
        .ok (ModInt.mkN (a.decompose.2.1 ^ phiOf a.decompose.2.2 *
          a.value ^ (ex % (phiOf a.decompose.2.2 : Int)).toNat) a.ring)
      else .pyNone := by
  unfold ModInt.pow
  rw [if_neg h0, if_neg (by push_neg; exact ⟨by omega, h1⟩),
    if_neg (by omega), if_pos rfl]

theorem pow_eval_pos_long (a : ModInt) (ex : Int) (h0 : a.value ≠ 0)
    (h1 : a.value ≠ 1) (hpos : 0 < ex) :
    a.pow ex false = .ok (ModInt.mkN (a.value ^ ex.toNat) a.ring) := by
  unfold ModInt.pow
  rw [if_neg h0, if_neg (by push_neg; exact ⟨by omega, h1⟩),
    if_neg (by omega), if_neg (by simp)]

theorem pow_eval_sentinel (a : ModInt) (ex : Int) (h0 : a.value ≠ 0)
    (h1 : a.value ≠ 1) (hpos : 0 < ex) (hdec : a.decompose.1 = -1) :
    a.pow ex true =
      .ok (ModInt.mkN (a.value ^ (ex % (a.ring.phi : Int)).toNat) a.ring) := by
  rw [pow_eval_pos_short a ex h0 h1 hpos, if_pos hdec]

theorem pow_eval_fast (a : ModInt) (ex : Int) (h0 : a.value ≠ 0)
    (h1 : a.value ≠ 1) (hpos : 0 < ex) (hdec1 : a.decompose.1 ≠ -1)
    (hgt : ex > a.decompose.1) :
    a.pow ex true =
      .ok (ModInt.mkN (a.decompose.2.1 ^ phiOf a.decompose.2.2 *
        a.value ^ (ex % (phiOf a.decompose.2.2 : Int)).toNat) a.ring) := by
  rw [pow_eval_pos_short a ex h0 h1 hpos, if_neg hdec1, if_pos hgt]

theorem pow_eval_stuck (a : ModInt) (ex : Int) (h0 : a.value ≠ 0)
    (h1 : a.value ≠ 1) (hpos : 0 < ex) (hdec1 : a.decompose.1 ≠ -1)
    (hle : ¬ ex > a.decompose.1) :
    a.pow ex true = .pyNone := by
  rw [pow_eval_pos_short a ex h0 h1 hpos, if_neg hdec1, if_neg hle]

theorem mkN_eq_of_mod (x y : Nat) (r : ModRing) (h : x % r.n = y % r.n) :
    ModInt.mkN x r = ModInt.mkN y r := by
  unfold ModInt.mkN
  rw [h]

/-- Correctness of the shortcut path: whenever the computed `nul_pow` is
strictly below a positive exponent, `__pow__(exponent, short=True)` returns
the element `value ^ exponent mod n`. -/
theorem pow_short_correct (r : ModRing) (v : Nat) (ex : Int) (hn : 1 ≤ r.n)
    (hv : 0 < v) (hex0 : 0 < ex)
    (hnul : (ModInt.decompose ⟨r, v⟩).1 < ex) :
    ModInt.pow ⟨r, v⟩ ex true = .ok (ModInt.mkN (v ^ ex.toNat) r) := by
  by_cases hv1 : v = 1
  · subst hv1
    rw [pow_eval_one ⟨r, 1⟩ ex true (by simp) (Or.inr rfl)]
    rw [one_pow]
  · have h0 : (⟨r, v⟩ : ModInt).value ≠ 0 := by
      simp only
      omega
    have h1 : (⟨r, v⟩ : ModInt).value ≠ 1 := hv1
    by_cases hcop : Nat.Coprime v r.n
    · have hdec : (ModInt.decompose ⟨r, v⟩) = (-1, 1, r.n) :=
        decompose_coprime r v hn hv hcop
      rw [pow_eval_sentinel ⟨r, v⟩ ex h0 h1 hex0 (by rw [hdec])]
      congr 1
      refine mkN_eq_of_mod _ _ r ?_
      have hφ : (⟨r, v⟩ : ModInt).ring.phi = Nat.totient r.n := by
        unfold ModRing.phi
        exact phiOf_eq_totient r.n hn
      have hcast : (ex % ((⟨r, v⟩ : ModInt).ring.phi : Int)).toNat =
          ex.toNat % Nat.totient r.n := by
        rw [hφ]
        exact emod_toNat ex _ (by omega)
      rw [hcast]
      exact pow_mod_totient v r.n ex.toNat hcop
    · have hdec := decompose_eq ⟨r, v⟩ hn hv
      have hne := selDiv_ne_nil_of_not_coprime r.n v hn hcop
      have hnn := nulSel_nonneg r.n v hn hv hne
      have hd1 : (ModInt.decompose ⟨r, v⟩).1 = nulSel (factorize r.n) v := by
        rw [hdec]
        simp only
        rw [max_eq_right (by omega : (-1 : Int) ≤ nulSel (factorize r.n) v)]
      rw [pow_eval_fast ⟨r, v⟩ ex h0 h1 hex0 (by rw [hd1]; omega) hnul]
      congr 1
      have hd21 : (ModInt.decompose ⟨r, v⟩).2.1 = prodSel (factorize r.n) v := by
        rw [hdec]
      have hd22 : (ModInt.decompose ⟨r, v⟩).2.2 =
          r.n / prodSel (factorize r.n) v := by
        rw [hdec]
      rw [hd21, hd22]
      refine mkN_eq_of_mod _ _ r ?_
      have hexlt : nulSel (factorize r.n) v < (ex.toNat : Int) := by
        rw [hd1] at hnul
        omega
      have hcast : (ex % ((phiOf (r.n / prodSel (factorize r.n) v)) : Int)).toNat
          = ex.toNat % phiOf (r.n / prodSel (factorize r.n) v) :=
        emod_toNat ex _ (by omega)
      rw [hcast]
      exact fast_modeq r.n v ex.toNat hn hv hexlt

/-! ### Claim theorems -/

theorem nulSel_le_nine (n v : Nat) (hn : 1 ≤ n) (hbound : n < 1024) :
    nulSel (factorize n) v ≤ 9 := by
  refine foldr_max_le _ _ _ _ (by norm_num) ?_
  intro pe hpe
  have hkp := factorize_key_prime n hn pe (List.mem_of_mem_filter hpe)
  have hdvd : pe.1 ^ pe.2 ∣ n := by
    rw [← factorize_prod n hn]
    unfold prodPE
    exact List.dvd_prod (List.mem_map_of_mem _ (List.mem_of_mem_filter hpe))
  have h2e : 2 ^ pe.2 ≤ n :=
    le_trans (Nat.pow_le_pow_left hkp.1.two_le _) (Nat.le_of_dvd (by omega) hdvd)
  have he9 : pe.2 ≤ 9 := by
    by_contra hcontra
    push_neg at hcontra
    have h10 : 2 ^ 10 ≤ 2 ^ pe.2 := Nat.pow_le_pow_right (by norm_num) hcontra
    have : (1024 : Nat) ≤ n := le_trans (by norm_num) (le_trans h10 h2e)
    omega
  unfold nulP
  have hdivle : pe.2 / min (v.factorization pe.1) pe.2 ≤ pe.2 :=
    Nat.div_le_self _ _
  by_cases hc : pe.2 % min (v.factorization pe.1) pe.2 = 0
  · rw [if_pos hc]
    omega
  · rw [if_neg hc]
    omega

/-- **C1** (code-bug evidence).  The spec says that with the shortcut enabled
and `0 < exponent ≤ nul_pow` the computation "falls through to direct
computation `value^exponent mod modulus`".  In the code the trailing `else`
belongs to `if short:`, so this branch has no `return` statement at all and
Python returns `None`.  Concretely for `Ring(12)`, value 6, exponent 1:
`nul_pow = 1`, the shortcut call returns `None`, while the direct
(non-shortcut) path returns the Element 6 that the contract requires. -/
theorem c1_pow_short_fallthrough_none :
    ModInt.pow ⟨⟨0, 12⟩, 6⟩ 1 true = .pyNone ∧
    (ModInt.decompose ⟨⟨0, 12⟩, 6⟩).1 = 1 ∧
    ModInt.pow ⟨⟨0, 12⟩, 6⟩ 1 false = .ok ⟨⟨0, 12⟩, 6⟩ :=
  ⟨by decide, by decide, by decide⟩

/-- **C2**: the repository's regression sweep: for every modulus
`n ∈ [2, 999)` and value `v ∈ [2, n)`, exponentiation with exponent 100 gives
identical results with the shortcut enabled and disabled. -/
theorem c2_shortcut_eq_direct (n v : Nat) (hn : 2 ≤ n) (hn' : n < 999)
    (hv : 2 ≤ v) (hv' : v < n) :
    ModInt.pow (ModRing.mint ⟨0, n⟩ (v : Int)) 100 true =
      ModInt.pow (ModRing.mint ⟨0, n⟩ (v : Int)) 100 false := by
  have hmint : ModRing.mint ⟨0, n⟩ (v : Int) = (⟨⟨0, n⟩, v⟩ : ModInt) := by
    unfold ModRing.mint ModInt.mkI
    have hlt : ((v : Int)) % (((⟨0, n⟩ : ModRing).n : Nat) : Int) = (v : Int) :=
      Int.emod_eq_of_lt (by omega) (by exact_mod_cast hv')
    rw [hlt]
    simp
  rw [hmint]
  have hnul : (ModInt.decompose ⟨⟨0, n⟩, v⟩).1 < (100 : Int) := by
    rw [decompose_eq ⟨⟨0, n⟩, v⟩ (by show (1 : Nat) ≤ n; omega)
      (by show (0 : Nat) < v; omega)]
    simp only
    have hb := nulSel_le_nine n v (by omega) (by omega)
    exact max_lt (by norm_num) (by omega)
  rw [pow_short_correct ⟨0, n⟩ v 100 (by show (1 : Nat) ≤ n; omega)
      (by omega) (by norm_num) hnul,
    pow_eval_pos_long ⟨⟨0, n⟩, v⟩ 100 (by show ¬ v = 0; omega)
      (by show ¬ v = 1; omega) (by norm_num)]

theorem c2_shortcut_eq_direct_witness :
    (2 ≤ 12 ∧ 12 < 999 ∧ 2 ≤ 6 ∧ 6 < 12) ∧
    ModInt.pow (ModRing.mint ⟨0, 12⟩ (6 : Int)) 100 true =
      ModInt.pow (ModRing.mint ⟨0, 12⟩ (6 : Int)) 100 false :=
  ⟨by norm_num,
    c2_shortcut_eq_direct 12 6 (by norm_num) (by norm_num) (by norm_num)
      (by norm_num)⟩

/-- **C4**: for every `n ≥ 2`, the ring's `prime_factors` mapping has prime
keys, no duplicated key, and reconstructing `∏ p^e` over its entries (as the
loop `acc * p ^ e` does) recovers `n`. -/
theorem c4_factorize_correct (i n : Nat) (hn : 2 ≤ n) :
    (∀ pe ∈ (ModRing.mk i n).prime_factors, pe.1.Prime) ∧
    ((ModRing.mk i n).prime_factors.map Prod.fst).Nodup ∧
    (ModRing.mk i n).prime_factors.foldl (fun acc pe => acc * pe.1 ^ pe.2) 1
      = n := by
  have h := factorize_spec n (by omega)
  have hpf : (ModRing.mk i n).prime_factors = factorize n := rfl
  rw [hpf]
  exact ⟨fun pe hpe => (h.1 pe hpe).1, pairwise_ne_of_lt h.2.2,
    by rw [foldl_mul_eq_prodPE, one_mul, h.2.1]⟩

theorem c4_factorize_correct_witness :
    2 ≤ 12 ∧
    ((∀ pe ∈ (ModRing.mk 0 12).prime_factors, pe.1.Prime) ∧
    ((ModRing.mk 0 12).prime_factors.map Prod.fst).Nodup ∧
    (ModRing.mk 0 12).prime_factors.foldl (fun acc pe => acc * pe.1 ^ pe.2) 1
      = 12) :=
  ⟨by norm_num, c4_factorize_correct 0 12 (by norm_num)⟩

/-- **C6**: `__pow__` raises (`InvalidOperationError` in the spec's taxonomy)
exactly when the value is 0 — any exponent, checked before the
`exponent == 0` identity case — or when the exponent is negative and the
element is not a unit; in no other case does it raise. -/
theorem c6_pow_error_iff (i n v : Nat) (ex : Int) (s : Bool) (hn : 1 ≤ n)
    (hv : v < n) :
    ModInt.pow ⟨⟨i, n⟩, v⟩ ex s = .err .invalidOp ↔
      v = 0 ∨ (ex < 0 ∧ ¬ Nat.Coprime v n) := by
  by_cases h0 : v = 0
  · rw [pow_eval_zero ⟨⟨i, n⟩, v⟩ ex s h0]
    simp [h0]
  · by_cases h01 : ex = 0 ∨ v = 1
    · rw [pow_eval_one _ ex s h0 h01]
      have hnr : ¬(v = 0 ∨ (ex < 0 ∧ ¬ Nat.Coprime v n)) := by
        rintro (h | ⟨hneg, hncop⟩)
        · exact h0 h
        · rcases h01 with h | h
          · omega
          · exact hncop (by rw [h]; exact Nat.coprime_one_left n)
      simp [hnr]
    · push_neg at h01
      by_cases hneg : ex < 0
      · rw [pow_eval_neg _ ex s h0 h01.2 hneg]
        by_cases hcop : Nat.Coprime v n
        · rw [if_pos ((is_coprime_iff ⟨⟨i, n⟩, v⟩ hn).mpr hcop)]
          simp [h0, hcop, hneg]
        · rw [if_neg (fun hcontra =>
            hcop ((is_coprime_iff ⟨⟨i, n⟩, v⟩ hn).mp hcontra))]
          simp [h0, hcop, hneg]
      · have hpos : 0 < ex := by
          rcases lt_trichotomy ex 0 with h | h | h
          · exact absurd h hneg
          · exact absurd h h01.1
          · exact h
        have hnr : ¬(v = 0 ∨ (ex < 0 ∧ ¬ Nat.Coprime v n)) := by
          rintro (h | ⟨hneg', _⟩)
          · exact h0 h
          · omega
        cases s with
        | false =>
          rw [pow_eval_pos_long _ ex h0 h01.2 hpos]
          simp [hnr]
        | true =>
          rw [pow_eval_pos_short _ ex h0 h01.2 hpos]
          split_ifs <;> simp [hnr]

theorem c6_pow_error_iff_witness :
    (1 ≤ 12 ∧ 0 < 12) ∧
    (ModInt.pow ⟨⟨0, 12⟩, 0⟩ 5 true = .err .invalidOp ↔
      (0 : Nat) = 0 ∨ ((5 : Int) < 0 ∧ ¬ Nat.Coprime 0 12)) :=
  ⟨by norm_num, c6_pow_error_iff 0 12 0 5 true (by norm_num) (by norm_num)⟩

/-- **C7**: every binary operation (`+`, `-`, `*`, `//`) and equality between
elements of two different `Ring` instances fails with the ring-mismatch
error, even when the two rings carry equal moduli (the model's `objId`
separates instances); equality in particular errors instead of returning
`false`. -/
theorem c7_cross_ring_errors (r1 r2 : ModRing) (a b : ModInt) (hne : r1 ≠ r2)
    (ha : a.ring = r1) (hb : b.ring = r2) :
    a.add b = .err .ringMismatch ∧ a.sub b = .err .ringMismatch ∧
    a.mul b = .err .ringMismatch ∧ a.floordiv b = .err .ringMismatch ∧
    a.eq (.modint b) = .err .ringMismatch := by
  have h : ¬ b.ring = a.ring := by
    rw [ha, hb]
    exact fun hcontra => hne hcontra.symm
  refine ⟨?_, ?_, ?_, ?_, ?_⟩
  · unfold ModInt.add
    rw [if_neg h]
  · unfold ModInt.sub
    rw [if_neg h]
  · unfold ModInt.mul
    rw [if_neg h]
  · unfold ModInt.floordiv
    rw [if_neg h]
  · show (if b.ring = a.ring then OpResult.ok (b.value == a.value)
      else OpResult.err PyErr.ringMismatch) = OpResult.err PyErr.ringMismatch
    rw [if_neg h]

theorem c7_cross_ring_errors_witness :
    ((⟨0, 12⟩ : ModRing) ≠ (⟨1, 12⟩ : ModRing) ∧
      (⟨⟨0, 12⟩, 5⟩ : ModInt).ring = ⟨0, 12⟩ ∧
      (⟨⟨1, 12⟩, 5⟩ : ModInt).ring = ⟨1, 12⟩) ∧
    (ModInt.add ⟨⟨0, 12⟩, 5⟩ ⟨⟨1, 12⟩, 5⟩ = .err .ringMismatch ∧
     ModInt.sub ⟨⟨0, 12⟩, 5⟩ ⟨⟨1, 12⟩, 5⟩ = .err .ringMismatch ∧
     ModInt.mul ⟨⟨0, 12⟩, 5⟩ ⟨⟨1, 12⟩, 5⟩ = .err .ringMismatch ∧
     ModInt.floordiv ⟨⟨0, 12⟩, 5⟩ ⟨⟨1, 12⟩, 5⟩ = .err .ringMismatch ∧
     ModInt.eq ⟨⟨0, 12⟩, 5⟩ (.modint ⟨⟨1, 12⟩, 5⟩) = .err .ringMismatch) :=
  ⟨⟨by decide, rfl, rfl⟩,
    c7_cross_ring_errors ⟨0, 12⟩ ⟨1, 12⟩ _ _ (by decide) rfl rfl⟩

/-- **C10**: comparing an Element against a non-Element operand (a raw
integer, or anything else) raises rather than returning `false`; only when
the operand is a `ModInt` does the same-ring check and value comparison
run. -/
theorem c10_eq_non_element (a : ModInt) (x : PyVal)
    (hx : ∀ b : ModInt, x ≠ PyVal.modint b) :
    a.eq x = .err .typeMismatch := by
  cases x with
  | modint b => exact absurd rfl (hx b)
  | intVal k => rfl
  | otherVal => rfl

theorem c10_eq_non_element_witness :
    (∀ b : ModInt, PyVal.intVal 5 ≠ PyVal.modint b) ∧
    ModInt.eq ⟨⟨0, 12⟩, 5⟩ (PyVal.intVal 5) = .err .typeMismatch :=
  ⟨fun b h => PyVal.noConfusion h,
    c10_eq_non_element ⟨⟨0, 12⟩, 5⟩ (PyVal.intVal 5)
      (fun b h => PyVal.noConfusion h)⟩

/-- **C8**: units.  For `n ≥ 2` and a unit value `v` (nonzero, coprime to
`n`): `a * a.Power(-1) = Mint(1)`, `a.Power(φ(n)) = Mint(1)` (Euler), and
concretely `Ring(12).Mint(7).Power(-1) = Mint(7)`. -/
theorem c8_unit_inverse_euler (i n v : Nat) (hn : 2 ≤ n) (hv : v < n)
    (hv0 : v ≠ 0) (hcop : Nat.Coprime v n) :
    (∃ b : ModInt, ModInt.pow ⟨⟨i, n⟩, v⟩ (-1) true = .ok b ∧
      ModInt.mul ⟨⟨i, n⟩, v⟩ b = .ok (ModInt.mkN 1 ⟨i, n⟩)) ∧
    ModInt.pow ⟨⟨i, n⟩, v⟩ (((⟨i, n⟩ : ModRing).phi : Nat) : Int) true =
      .ok (ModInt.mkN 1 ⟨i, n⟩) ∧
    ModInt.pow ⟨⟨0, 12⟩, 7⟩ (-1) true = .ok ⟨⟨0, 12⟩, 7⟩ := by
  have hn1 : (1 : Nat) ≤ n := by omega
  have hφeq : ((⟨i, n⟩ : ModRing).phi : Nat) = Nat.totient n :=
    phiOf_eq_totient n hn1
  have hφpos : 0 < Nat.totient n := Nat.totient_pos.mpr (by omega)
  have heuler : v ^ Nat.totient n ≡ 1 [MOD n] := Nat.ModEq.pow_totient hcop
  refine ⟨?_, ?_, by decide⟩
  · -- a * a^(-1) = 1
    by_cases hv1 : v = 1
    · subst hv1
      refine ⟨ModInt.mkN 1 ⟨i, n⟩,
        pow_eval_one ⟨⟨i, n⟩, 1⟩ (-1) true (by show ¬ (1 : Nat) = 0; omega)
          (Or.inr rfl), ?_⟩
      show ModInt.mul ⟨⟨i, n⟩, 1⟩ ⟨⟨i, n⟩, 1 % n⟩ = .ok (ModInt.mkN 1 ⟨i, n⟩)
      unfold ModInt.mul
      rw [if_pos rfl]
      congr 1
      refine mkN_eq_of_mod _ _ _ ?_
      show (1 * (1 % n)) % n = 1 % n
      rw [one_mul, Nat.mod_mod_of_dvd _ dvd_rfl]
    · have hb := pow_eval_neg ⟨⟨i, n⟩, v⟩ (-1) true (by show ¬ v = 0; omega)
        (by show ¬ v = 1; omega) (by norm_num)
      rw [if_pos ((is_coprime_iff ⟨⟨i, n⟩, v⟩ hn1).mpr hcop)] at hb
      refine ⟨_, hb, ?_⟩
      show ModInt.mul ⟨⟨i, n⟩, v⟩ (ModInt.mkN _ ⟨i, n⟩) = .ok (ModInt.mkN 1 ⟨i, n⟩)
      unfold ModInt.mul ModInt.mkN
      rw [if_pos rfl]
      congr 1
      show (⟨⟨i, n⟩, (v * (v ^ ((-1 : Int) % ((⟨i, n⟩ : ModRing).phi : Int)).toNat
        % n)) % n⟩ : ModInt) = ⟨⟨i, n⟩, 1 % n⟩
      have hexp : ((-1 : Int) % ((⟨i, n⟩ : ModRing).phi : Int)).toNat =
          Nat.totient n - 1 := by
        rw [show ((⟨i, n⟩ : ModRing).phi : Int) = (Nat.totient n : Int) by
          rw [hφeq]]
        rw [neg_one_emod (Nat.totient n) hφpos]
        omega
      rw [hexp]
      congr 1
      have hmodeq : v * (v ^ (Nat.totient n - 1) % n) ≡ 1 [MOD n] := by
        calc v * (v ^ (Nat.totient n - 1) % n)
            ≡ v * v ^ (Nat.totient n - 1) [MOD n] :=
              (Nat.mod_modEq _ n).mul_left v
          _ = v ^ Nat.totient n := by
              rw [← pow_succ']
              congr 1
              omega
          _ ≡ 1 [MOD n] := heuler
      exact hmodeq
  · -- a ^ φ(n) = 1
    by_cases hv1 : v = 1
    · subst hv1
      rw [pow_eval_one ⟨⟨i, n⟩, 1⟩ _ true (by show ¬ (1 : Nat) = 0; omega)
        (Or.inr rfl)]
    · have hnul : (ModInt.decompose ⟨⟨i, n⟩, v⟩).1 <
          (((⟨i, n⟩ : ModRing).phi : Nat) : Int) := by
        rw [decompose_coprime ⟨i, n⟩ v hn1 (by omega) hcop]
        simp only
        rw [hφeq]
        calc (-1 : Int) < 0 := by norm_num
          _ ≤ (Nat.totient n : Int) := by exact_mod_cast Nat.zero_le _
      rw [pow_short_correct ⟨i, n⟩ v _ hn1 (by omega)
        (by rw [hφeq]; exact_mod_cast hφpos) hnul]
      congr 1
      refine mkN_eq_of_mod _ _ _ ?_
      show v ^ (((⟨i, n⟩ : ModRing).phi : Nat) : Int).toNat % n = 1 % n
      rw [Int.toNat_natCast, hφeq]
      exact heuler

theorem c8_unit_inverse_euler_witness :
    (2 ≤ 12 ∧ 7 < 12 ∧ (7 : Nat) ≠ 0 ∧ Nat.Coprime 7 12) ∧
    ((∃ b : ModInt, ModInt.pow ⟨⟨0, 12⟩, 7⟩ (-1) true = .ok b ∧
      ModInt.mul ⟨⟨0, 12⟩, 7⟩ b = .ok (ModInt.mkN 1 ⟨0, 12⟩)) ∧
    ModInt.pow ⟨⟨0, 12⟩, 7⟩ (((⟨0, 12⟩ : ModRing).phi : Nat) : Int) true =
      .ok (ModInt.mkN 1 ⟨0, 12⟩) ∧
    ModInt.pow ⟨⟨0, 12⟩, 7⟩ (-1) true = .ok ⟨⟨0, 12⟩, 7⟩) :=
  ⟨by decide, c8_unit_inverse_euler 0 12 7 (by norm_num) (by norm_num)
    (by norm_num) (by decide)⟩

/-- **C9**: `ModRing(1)` is well-formed (empty factor list, `phi = 1`), and
the fast exponentiation path relies on it: when every prime factor of the
modulus divides the value, `decompose` returns `m = 1`, the transient
sub-ring is `ModRing(1)`, the reduction `exponent % phi(1)` is `% 1` (never a
division by zero), and `Power` returns the zero element. -/
theorem c9_modulus_one_collapse (i n v : Nat) (ex : Int) (hn : 2 ≤ n)
    (hv0 : 0 < v) (hv : v < n)
    (hall : ∀ pe ∈ (ModRing.mk i n).prime_factors, pe.1 ∣ v)
    (hex : (ModInt.decompose ⟨⟨i, n⟩, v⟩).1 < ex) :
    ((ModRing.mk i 1).prime_factors = [] ∧ (ModRing.mk i 1).phi = 1) ∧
    (ModInt.decompose ⟨⟨i, n⟩, v⟩).2.2 = 1 ∧
    ModInt.pow ⟨⟨i, n⟩, v⟩ ex true = .ok ⟨⟨i, n⟩, 0⟩ := by
  have hn1 : (1 : Nat) ≤ n := by omega
  have hsel : selDiv (factorize n) v = factorize n := by
    unfold selDiv
    rw [List.filter_eq_self]
    intro pe hpe
    simp only [decide_eq_true_eq]
    exact Nat.mod_eq_zero_of_dvd (hall pe hpe)
  have hprodsel : prodSel (factorize n) v = n := by
    unfold prodSel
    rw [hsel]
    exact factorize_prod n hn1
  have hncop : ¬ Nat.Coprime v n := by
    intro hcop
    have hnil := selDiv_eq_nil_of_coprime n v hn1 hcop
    rw [hsel] at hnil
    have hp := factorize_prod n hn1
    rw [hnil, prodPE_nil] at hp
    omega
  have hdec := decompose_eq ⟨⟨i, n⟩, v⟩ hn1 hv0
  have hne := selDiv_ne_nil_of_not_coprime n v hn1 hncop
  have hnn := nulSel_nonneg n v hn1 hv0 hne
  have hd1 : (ModInt.decompose ⟨⟨i, n⟩, v⟩).1 = nulSel (factorize n) v := by
    rw [hdec]
    simp only
    rw [max_eq_right (by omega : (-1 : Int) ≤ nulSel (factorize n) v)]
  have hd22 : (ModInt.decompose ⟨⟨i, n⟩, v⟩).2.2 = 1 := by
    rw [hdec]
    simp only
    rw [hprodsel, Nat.div_self (by omega)]
  have hv1 : v ≠ 1 := by
    intro hcontra
    subst hcontra
    exact hncop (Nat.coprime_one_left n)
  refine ⟨⟨rfl, rfl⟩, hd22, ?_⟩
  rw [pow_eval_fast ⟨⟨i, n⟩, v⟩ ex (by show ¬ v = 0; omega) hv1
    (by rw [hd1] at hex; omega) (by rw [hd1]; omega) hex]
  have hd21 : (ModInt.decompose ⟨⟨i, n⟩, v⟩).2.1 = n := by
    rw [hdec]
    simp only
    rw [hprodsel]
  rw [hd21, hd22]
  have hφ1 : phiOf 1 = 1 := rfl
  rw [hφ1]
  congr 1
  show ModInt.mkN (n ^ 1 * v ^ (ex % ((1 : Nat) : Int)).toNat) ⟨i, n⟩ =
    (⟨⟨i, n⟩, 0⟩ : ModInt)
  rw [show ((1 : Nat) : Int) = 1 from rfl, Int.emod_one]
  unfold ModInt.mkN
  congr 1
  show (n ^ 1 * v ^ (0 : Int).toNat) % n = 0
  rw [pow_one, Int.toNat_zero, pow_zero, mul_one, Nat.mod_self]

theorem c9_modulus_one_collapse_witness :
    (2 ≤ 12 ∧ 0 < 6 ∧ 6 < 12 ∧
      (∀ pe ∈ (ModRing.mk 0 12).prime_factors, pe.1 ∣ 6) ∧
      (ModInt.decompose ⟨⟨0, 12⟩, 6⟩).1 < (2 : Int)) ∧
    (((ModRing.mk 0 1).prime_factors = [] ∧ (ModRing.mk 0 1).phi = 1) ∧
    (ModInt.decompose ⟨⟨0, 12⟩, 6⟩).2.2 = 1 ∧
    ModInt.pow ⟨⟨0, 12⟩, 6⟩ 2 true = .ok ⟨⟨0, 12⟩, 0⟩) :=
  ⟨by decide, c9_modulus_one_collapse 0 12 6 2 (by norm_num) (by norm_num)
    (by norm_num) (by decide) (by decide)⟩

/-- **C5**: for every `n ≥ 2` the ring's `totient` field is Euler's `φ(n)`,
the count of integers in `[1, n)` coprime to `n` (the computation `acc / p *
(p - 1)` is exact integer arithmetic, no rounding). -/
theorem c5_phi_correct (i n : Nat) (hn : 2 ≤ n) :
    (ModRing.mk i n).phi = Nat.totient n ∧
    (ModRing.mk i n).phi =
      ((Finset.Ico 1 n).filter (fun v => Nat.Coprime v n)).card := by
  have h1 : (ModRing.mk i n).phi = Nat.totient n := phiOf_eq_totient n (by omega)
  refine ⟨h1, ?_⟩
  rw [h1, Nat.totient_eq_card_coprime]
  congr 1
  ext x
  simp only [Finset.mem_filter, Finset.mem_range, Finset.mem_Ico]
  constructor
  · rintro ⟨hlt, hcop⟩
    have hx0 : x ≠ 0 := by
      intro hcontra
      subst hcontra
      rw [Nat.coprime_zero_right] at hcop
      omega
    exact ⟨⟨by omega, hlt⟩, Nat.coprime_comm.mp hcop⟩
  · rintro ⟨⟨h1x, hlt⟩, hcop⟩
    exact ⟨hlt, Nat.coprime_comm.mp hcop⟩

theorem c5_phi_correct_witness :
    2 ≤ 12 ∧
    ((ModRing.mk 0 12).phi = Nat.totient 12 ∧
    (ModRing.mk 0 12).phi =
      ((Finset.Ico 1 12).filter (fun v => Nat.Coprime v 12)).card) :=
  ⟨by norm_num, c5_phi_correct 0 12 (by norm_num)⟩

/-! ### Spec-side formulation of `decompose` (claim C3) -/

/-- Spec-side: the prime factors of the modulus that divide the value. -/
def specDividing (n v : Nat) : Finset Nat :=
  n.primeFactors.filter (fun p => p ∣ v)

/-- Spec-side `k`: the product of `p ^ e` over the prime factors `p` of the
modulus that divide the value. -/
def specK (n v : Nat) : Nat :=
  ∏ p ∈ specDividing n v, p ^ n.factorization p

/-- Spec-side `value_e`: the multiplicity of `p` in the value, clipped at `e`
(every power of `p` divides 0, so the clipped multiplicity of 0 is `e`). -/
def specValE (p e v : Nat) : Nat :=
  if v = 0 then e else min (v.factorization p) e

/-- Spec-side `nul_pow_p`: `⌊e / value_e⌋ - 1` when `value_e` divides `e`
evenly, else `⌊e / value_e⌋`. -/
def specNulP (e ve : Nat) : Int :=
  ((e / ve : Nat) : Int) - (if ve ∣ e then 1 else 0)

/-- Spec-side `nul_pow`: the maximum of `nul_pow_p` over the dividing primes
(`-1` if there are none). -/
def specNul (n v : Nat) : Int :=
  (specDividing n v).fold max (-1)
    (fun p => specNulP (n.factorization p) (specValE p (n.factorization p) v))

theorem specNulP_eq_nulP (e ve : Nat) : specNulP e ve = nulP e ve := by
  unfold specNulP nulP
  by_cases h : ve ∣ e
  · rw [if_pos h, if_pos (Nat.mod_eq_zero_of_dvd h)]
  · rw [if_neg h, if_neg (fun hc => h (Nat.dvd_of_mod_eq_zero hc))]

theorem map_fst_filter (L : List (Nat × Nat)) (P : Nat → Bool) :
    (L.filter (fun pe => P pe.1)).map Prod.fst = (L.map Prod.fst).filter P := by
  induction L with
  | nil => rfl
  | cons pe L ih =>
    cases hP : P pe.1 with
    | true => simp [List.filter_cons, hP, ih]
    | false => simp [List.filter_cons, hP, ih]

theorem selDiv_map_fst (L : List (Nat × Nat)) (v : Nat) :
    (selDiv L v).map Prod.fst =
      (L.map Prod.fst).filter (fun p => decide (v % p = 0)) :=
  map_fst_filter L (fun p => decide (v % p = 0))

theorem fold_max_toFinset (g : Nat → Int) (b : Int) :
    ∀ (l : List Nat), l.Nodup →
      Finset.fold max b g l.toFinset = (l.map g).foldr max b := by
  intro l
  induction l with
  | nil =>
    intro _
    simp [Finset.fold_empty]
  | cons a l ih =>
    intro hnd
    rw [List.nodup_cons] at hnd
    rw [List.toFinset_cons,
      Finset.fold_insert (by rw [List.mem_toFinset]; exact hnd.1), ih hnd.2,
      List.map_cons, List.foldr_cons]

theorem specDividing_eq (n v : Nat) (hn : 1 ≤ n) :
    specDividing n v = ((selDiv (factorize n) v).map Prod.fst).toFinset := by
  unfold specDividing
  rw [← factorize_keys_toFinset n hn, selDiv_map_fst, List.toFinset_filter]
  refine (Finset.filter_congr ?_).symm
  intro x _
  simp only [decide_eq_true_eq]
  constructor
  · exact fun h => Nat.dvd_of_mod_eq_zero h
  · exact fun h => Nat.mod_eq_zero_of_dvd h

theorem selDiv_keys_nodup (n v : Nat) (hn : 1 ≤ n) :
    ((selDiv (factorize n) v).map Prod.fst).Nodup := by
  rw [selDiv_map_fst]
  exact List.Nodup.filter _ (factorize_keys_ne n hn)

theorem specK_eq (n v : Nat) (hn : 1 ≤ n) :
    specK n v = prodSel (factorize n) v := by
  unfold specK
  rw [specDividing_eq n v hn,
    List.prod_toFinset _ (selDiv_keys_nodup n v hn), List.map_map]
  unfold prodSel prodPE
  congr 1
  refine List.map_congr_left ?_
  intro pe hpe
  simp only [Function.comp_apply]
  rw [factorize_multiplicity n hn pe (List.mem_of_mem_filter hpe)]

theorem specNul_eq (n v : Nat) (hn : 1 ≤ n) (hv : 0 < v) :
    specNul n v = nulSel (factorize n) v := by
  unfold specNul
  rw [specDividing_eq n v hn,
    fold_max_toFinset _ _ _ (selDiv_keys_nodup n v hn), List.map_map,
    List.foldr_map]
  unfold nulSel
  refine foldr_max_congr _ _ _ _ ?_
  intro pe hpe
  simp only [Function.comp_apply]
  rw [factorize_multiplicity n hn pe (List.mem_of_mem_filter hpe),
    specNulP_eq_nulP]
  unfold specValE
  rw [if_neg hv.ne']

/-- **C3**: `Decompose` returns the sentinel `(-1, 1, modulus)` exactly when
the value is coprime to the modulus; otherwise `(nul_pow, k, m)` with `k` the
product of `p^e` over the prime factors of the modulus dividing the value,
`m = modulus / k`, and `nul_pow` the maximum of
`⌊e / value_e⌋ - (1 if value_e ∣ e else 0)` with `value_e` the multiplicity
of `p` in the value clipped at `e`; that `nul_pow` is never the sentinel. -/
theorem c3_decompose_spec (i n v : Nat) (hn : 1 ≤ n) (hv : v < n) :
    (Nat.Coprime v n → ModInt.decompose ⟨⟨i, n⟩, v⟩ = (-1, 1, n)) ∧
    (¬ Nat.Coprime v n →
      ModInt.decompose ⟨⟨i, n⟩, v⟩ = (specNul n v, specK n v, n / specK n v) ∧
      0 ≤ specNul n v) := by
  constructor
  · intro hcop
    rcases Nat.eq_zero_or_pos v with hv0 | hv0
    · subst hv0
      have hone : n = 1 := (Nat.coprime_zero_left n).mp hcop
      subst hone
      rfl
    · exact decompose_coprime ⟨i, n⟩ v hn hv0 hcop
  · intro hncop
    have hn2 : 2 ≤ n := by
      rcases Nat.lt_or_ge n 2 with h | h
      · exfalso
        have hone : n = 1 := by omega
        subst hone
        exact hncop (Nat.coprime_one_right v)
      · exact h
    rcases Nat.eq_zero_or_pos v with hv0 | hv0
    · subst hv0
      have hKall : specDividing n 0 = n.primeFactors := by
        unfold specDividing
        exact Finset.filter_true_of_mem (fun p _ => dvd_zero p)
      have hK : specK n 0 = n := by
        unfold specK
        rw [hKall]
        have h := Nat.factorization_prod_pow_eq_self (show n ≠ 0 by omega)
        rw [Finsupp.prod, Nat.support_factorization] at h
        exact h
      have hkeys : ∀ p ∈ (factorize n).map Prod.fst,
          specNulP (n.factorization p) (specValE p (n.factorization p) 0)
            = 0 := by
        intro p hp
        rcases List.mem_map.mp hp with ⟨pe, hpe, hkey⟩
        have hkp := factorize_key_prime n (by omega) pe hpe
        have hfac : n.factorization p = pe.2 := by
          rw [← hkey]
          exact factorize_multiplicity n (by omega) pe hpe
        unfold specValE specNulP
        rw [if_pos rfl, hfac, if_pos dvd_rfl, Nat.div_self hkp.2]
        norm_num
      have hNul : specNul n 0 = 0 := by
        unfold specNul
        rw [hKall, ← factorize_keys_toFinset n (by omega),
          fold_max_toFinset _ _ _ (factorize_keys_ne n (by omega)),
          List.foldr_map]
        have hnonempty : (factorize n).map Prod.fst ≠ [] := by
          intro hcontra
          have hp := factorize_prod n (by omega)
          have hfn : factorize n = [] := List.map_eq_nil_iff.mp hcontra
          rw [hfn, prodPE_nil] at hp
          omega
        apply le_antisymm
        · refine foldr_max_le _ _ _ _ (by norm_num) ?_
          intro x hx
          rw [hkeys x hx]
        · obtain ⟨p, hp⟩ := List.exists_mem_of_ne_nil _ hnonempty
          have := (le_foldr_max
            (fun p => specNulP (n.factorization p)
              (specValE p (n.factorization p) 0)) (-1)
            ((factorize n).map Prod.fst)).2 p hp
          rw [hkeys p hp] at this
          exact this
      refine ⟨?_, by rw [hNul]⟩
      rw [decompose_zero ⟨⟨i, n⟩, 0⟩ hn2 rfl, hNul, hK,
        Nat.div_self (by omega : 0 < n)]
    · have hd := decompose_eq ⟨⟨i, n⟩, v⟩ hn hv0
      have hne := selDiv_ne_nil_of_not_coprime n v hn hncop
      have hnn := nulSel_nonneg n v hn hv0 hne
      have hKeq := specK_eq n v hn
      have hNeq := specNul_eq n v hn hv0
      refine ⟨?_, by rw [hNeq]; exact hnn⟩
      rw [hd]
      refine Prod.ext ?_ (Prod.ext ?_ ?_)
      · simp only
        rw [hNeq]
        exact max_eq_right (by omega)
      · simp only
        rw [hKeq]
      · simp only
        rw [hKeq]

theorem c3_decompose_spec_witness :
    (1 ≤ 12 ∧ 4 < 12) ∧
    ((Nat.Coprime 4 12 → ModInt.decompose ⟨⟨0, 12⟩, 4⟩ = (-1, 1, 12)) ∧
    (¬ Nat.Coprime 4 12 →
      ModInt.decompose ⟨⟨0, 12⟩, 4⟩ =
        (specNul 12 4, specK 12 4, 12 / specK 12 4) ∧
      0 ≤ specNul 12 4)) :=
  ⟨by norm_num, c3_decompose_spec 0 12 4 (by norm_num) (by norm_num)⟩

end ModArith
